import Mathlib

/-!
Verification of the event-coalescing task scheduler of `ocrmypdf_auto.py`.

The embedding models the per-path task state machine (`OcrTask`), the scheduler
registry (`AutoOcrScheduler.current_tasks`, restricted to one watched path, with
`tasks` holding every `OcrTask` object ever created for that path and `reg`
holding the registry entry), and the interleaving of the watchdog event thread
with the worker thread executing `OcrTask.process`.

Concurrency is modelled as a labelled transition system `step` whose atomic
actions are: delivery of a `touched`/`deleted` event (`on_file_touched` /
`on_file_deleted` together with the `touch`/`cancel` they invoke), the pool
starting a submitted job, one iteration of the coalescing `while` loop of
`process` (lines 149-162), waking from `time.sleep`, the return of the external
`ocrmypdf` invocation, and the post-run `last_touch` check (lines 181-187).
Interleavings finer than one of these blocks (individual bytecodes inside a
loop iteration) are below the granularity of the model.  Wall-clock time is an
explicit rational component advanced by `tick` labels; `time.sleep(w)` is
modelled as the worker becoming runnable at any time at or after its due time.
-/

namespace OcrAuto

/-- Timestamps and durations in seconds, as exact rationals. -/
abbrev Time := ℚ

/-- Translation of `try_float` (ocrmypdf_auto.py lines 82-86).  The string
argument is represented by its parsed numeric value; `none` stands for an unset
variable or a string that `float()` rejects, both of which raise
`ValueError`/`TypeError` and select the default. -/
def try_float (s : Option ℚ) (default_value : ℚ) : ℚ := s.getD default_value

/-- `OcrTask.COALESCING_DELAY` (line 96) as a function of the parsed value of
the `OCR_PROCESSING_DELAY` environment variable. -/
def COALESCING_DELAY (env : Option ℚ) : Time := try_float env 3

/-- Worker pool size used by `AutoOcrScheduler.__init__` (line 236):
`ThreadPoolExecutor(max_workers=3)`.  The literal `3` is hard-coded; no
environment variable or other configuration source is consulted, which the
explicit environment argument records. -/
def threadpoolMaxWorkers (_env : String → Option String) : ℕ := 3

/-- `OcrmypdfConfig` (lines 19-27) over an abstract argument-atom type `α`:
the input and output paths plus the insertion-ordered options dictionary
(option name paired with its optional value). -/
structure OcrmypdfConfig (α : Type) where
  input_path : α
  output_path : α
  options : List (α × Option α)

/-- `OcrmypdfConfig.get_ocrmypdf_arguments` (lines 72-80), statement for
statement: start from `[]`, for each option append its name and, when the value
is not `None`, the value, then append `input_path` and `output_path`. -/
def get_ocrmypdf_arguments {α : Type} (c : OcrmypdfConfig α) : List α :=
  ((c.options.foldl
      (fun args kv => (args ++ [kv.1]) ++ (match kv.2 with | some v => [v] | none => []))
      []) ++ [c.input_path]) ++ [c.output_path]

/-- The per-option argument fragment: the option name followed by its value
when the value is present, the name alone otherwise. -/
def optArgs {α : Type} (kv : α × Option α) : List α :=
  kv.1 :: (match kv.2 with | some v => [v] | none => [])

/-- The five states of `OcrTask` (lines 90-94). -/
inductive TaskState
  | NEW
  | QUEUED
  | SLEEPING
  | ACTIVE
  | DONE
  deriving DecidableEq

/-- Position of the worker-thread activity attached to one `OcrTask` object:
`idle` - no `process` invocation was ever submitted for it;
`inPool` - submitted via `submit_func` and not yet started (the `future` can
still be cancelled);
`cancelled` - the pending work item was removed by `future.cancel()`;
`loopCheck` - the worker is at the top of the coalescing `while` loop;
`sleeping due` - the worker is inside `time.sleep`, runnable again at `due`;
`running` - the external `ocrmypdf` invocation is executing;
`postCheck` - the external call returned, the line-181 `last_touch` check is
about to run;
`terminated` - the `process` invocation returned. -/
inductive WorkerPc
  | idle
  | inPool
  | cancelled
  | loopCheck
  | sleeping (due : Time)
  | running
  | postCheck
  | terminated
  deriving DecidableEq

/-- One `OcrTask` object (lines 88-187).  `jobs` records the start time of
every external `ocrmypdf` invocation made by this task; `rcs` records the exit
status of every invocation that returned; `doneCount` counts executions of
`done()` (each of which fires the completion callback). -/
structure OcrTask where
  st : TaskState
  last_touch : Option Time
  pc : WorkerPc
  jobs : List Time
  rcs : List Int
  doneCount : ℕ
  deriving DecidableEq

/-- A freshly constructed `OcrTask` before the constructor's own `self.touch()`
(lines 98-106): state `NEW`, no recorded touch, no worker activity. -/
def initTask : OcrTask :=
  { st := .NEW, last_touch := none, pc := .idle, jobs := [], rcs := [], doneCount := 0 }

/-- Global state of the scheduler core for one watched path.  `tasks` lists
every `OcrTask` object created for the path in creation order; `reg` is the
`current_tasks` entry for the path (the index of the mapped object, `none` when
the path is absent); `regRemovals` counts successful `del current_tasks[path]`
executions and `keyErr` counts the `KeyError`s such a `del` raises when the
entry is already gone; `assertFail` records a failure of the
`assert self.state in [NEW, ACTIVE]` in `enqueue`; `lateSubmit` counts submit
attempts after the pool was shut down; `touches` is a ghost log of the times at
which `touched` events were delivered. -/
structure Sys where
  now : Time
  delay : Time
  watching : Bool
  tasks : List OcrTask
  reg : Option ℕ
  regRemovals : ℕ
  keyErr : ℕ
  assertFail : Bool
  lateSubmit : ℕ
  touches : List Time
  deriving DecidableEq

/-- `OcrTask.enqueue` (lines 118-122): under the assertion that the state is
`NEW` or `ACTIVE`, set the state to `QUEUED` and submit `self.process` to the
pool.  The boolean is the assertion outcome. -/
def enqueueT (t : OcrTask) : OcrTask × Bool :=
  if t.st = TaskState.NEW ∨ t.st = TaskState.ACTIVE then
    ({ t with st := .QUEUED, pc := .inPool }, true)
  else (t, false)

/-- `OcrTask.touch` (lines 124-128): record the current time in `last_touch`
and, when the state is `NEW`, call `enqueue`. -/
def touchT (now : Time) (t : OcrTask) : OcrTask × Bool :=
  let t1 := { t with last_touch := some now }
  if t1.st = TaskState.NEW then enqueueT t1 else (t1, true)

/-- `AutoOcrScheduler.on_task_done` (lines 289-290): `del current_tasks[path]`,
which removes whatever entry the path currently has and raises `KeyError` when
there is none. -/
def onTaskDone (s : Sys) : Sys :=
  match s.reg with
  | some _ => { s with reg := none, regRemovals := s.regRemovals + 1 }
  | none => { s with keyErr := s.keyErr + 1 }

/-- `OcrTask.done` (lines 137-141) executed for the task at index `i`, whose
updated record `t` the caller supplies: set the state to `DONE`, count the
callback, and run the scheduler's removal callback. -/
def doneT (s : Sys) (i : ℕ) (t : OcrTask) : Sys :=
  onTaskDone
    { s with tasks := s.tasks.set i { t with st := .DONE, doneCount := t.doneCount + 1 } }

/-- `OcrTask.cancel` reached through `AutoOcrScheduler.on_file_deleted`
(lines 130-135 and 285-287): when the path is registered, clear `last_touch`;
when the state is `QUEUED`, additionally call `future.cancel()` - which removes
the work item only if it has not started - and then call `done()`
unconditionally. -/
def cancelSys (s : Sys) : Sys :=
  match s.reg with
  | none => s
  | some i =>
    match s.tasks[i]? with
    | none => s
    | some t =>
      if t.st = TaskState.QUEUED then
        doneT s i
          { t with last_touch := none,
                   pc := if t.pc = WorkerPc.inPool then .cancelled else t.pc }
      else
        { s with tasks := s.tasks.set i { t with last_touch := none } }

/-- Transition labels: the two watchdog callbacks, the passage of time, and the
scheduling points of the worker thread attached to the task at index `i`. -/
inductive Ev
  | touched
  | deleted
  | tick (d : Time)
  | poolStart (i : ℕ)
  | wake (i : ℕ)
  | loopIter (i : ℕ)
  | jobFinish (i : ℕ) (rc : Int)
  | postRunCheck (i : ℕ)
  deriving DecidableEq

/-- One atomic transition of the system.  `none` means the label is not enabled
in the given state. -/
def step (s : Sys) : Ev → Option Sys
  | .touched =>
    if s.watching then
      let s0 := { s with touches := s.touches ++ [s.now] }
      match s0.reg with
      | some i =>
        match s0.tasks[i]? with
        | none => none
        | some t =>
          let p := touchT s0.now t
          some { s0 with tasks := s0.tasks.set i p.1,
                         assertFail := s0.assertFail || !p.2 }
      | none =>
        let p := touchT s0.now initTask
        some { s0 with tasks := s0.tasks ++ [p.1],
                       reg := some s0.tasks.length,
                       assertFail := s0.assertFail || !p.2 }
    else none
  | .deleted => if s.watching then some (cancelSys s) else none
  | .tick d => if 0 ≤ d then some { s with now := s.now + d } else none
  | .poolStart i =>
    match s.tasks[i]? with
    | some t =>
      if t.pc = WorkerPc.inPool then
        some { s with tasks := s.tasks.set i { t with pc := .loopCheck } }
      else none
    | none => none
  | .wake i =>
    match s.tasks[i]? with
    | some t =>
      match t.pc with
      | .sleeping due =>
        if due ≤ s.now then
          some { s with tasks := s.tasks.set i { t with pc := .loopCheck } }
        else none
      | _ => none
    | none => none
  | .loopIter i =>
    match s.tasks[i]? with
    | some t =>
      if t.pc = WorkerPc.loopCheck then
        match t.last_touch with
        | none => some (doneT s i { t with pc := .terminated })
        | some lt =>
          if lt + s.delay ≤ s.now then
            let t1 := { t with st := TaskState.ACTIVE, last_touch := none,
                               jobs := t.jobs ++ [s.now], pc := WorkerPc.running }
            some { s with tasks := s.tasks.set i t1 }
          else
            let t1 := { t with st := TaskState.SLEEPING, pc := WorkerPc.sleeping (lt + s.delay) }
            some { s with tasks := s.tasks.set i t1 }
      else none
    | none => none
  | .jobFinish i rc =>
    match s.tasks[i]? with
    | some t =>
      if t.pc = WorkerPc.running then
        let t1 := { t with rcs := t.rcs ++ [rc], pc := WorkerPc.postCheck }
        some { s with tasks := s.tasks.set i t1 }
      else none
    | none => none
  | .postRunCheck i =>
    match s.tasks[i]? with
    | some t =>
      if t.pc = WorkerPc.postCheck then
        match t.last_touch with
        | some _ =>
          let p := enqueueT t
          let t1 := if p.2 then p.1 else { t with pc := WorkerPc.terminated }
          some { s with
            tasks := s.tasks.set i t1,
            assertFail := s.assertFail || !p.2 }
        | none => some (doneT s i { t with pc := .terminated })
      else none
    | none => none

/-- Run a list of labels from a state; `none` as soon as one is not enabled. -/
def run (s : Sys) : List Ev → Option Sys
  | [] => some s
  | e :: tr => (step s e).bind (fun s1 => run s1 tr)

/-- Initial state: clock at `t0`, coalescing delay `d`, watchdog observing, no
task ever created, path unregistered. -/
def init (d t0 : Time) : Sys :=
  { now := t0, delay := d, watching := true, tasks := [], reg := none,
    regRemovals := 0, keyErr := 0, assertFail := false, lateSubmit := 0, touches := [] }

/-- All external-job invocation times across every task of the path. -/
def allJobs (s : Sys) : List Time := (s.tasks.map OcrTask.jobs).flatten

/-- Last element of a time list, defaulting to `0`. -/
def lastT : List Time → Time
  | [] => 0
  | [a] => a
  | _ :: b :: r => lastT (b :: r)

/-- Decides that consecutive touch times fall within the coalescing window of
each other: each touch is strictly less than `delay` after its predecessor. -/
def withinGapsB (d : Time) : List Time → Bool
  | a :: b :: r => (decide (b < a + d)) && withinGapsB d (b :: r)
  | _ => true

/-- True for labels that are watchdog events. -/
def isWatchdogEv : Ev → Bool
  | .touched => true
  | .deleted => true
  | _ => false

/-- True for the `deleted` label. -/
def isDeleted : Ev → Bool
  | .deleted => true
  | _ => false

/-- A trace with no `deleted` event. -/
def noDeleteB (tr : List Ev) : Bool := tr.all (fun e => !isDeleted e)

/-- A trace consisting only of worker steps and time passing. -/
def workerOnlyB (tr : List Ev) : Bool := tr.all (fun e => !isWatchdogEv e)

/-- Decides that firing `deleted` now would not hit the pool-cancellation race:
the registered task must not be `QUEUED` with its work item already taken off
the pool queue (in that race `future.cancel()` fails but `done()` runs
anyway). -/
def okDelete (s : Sys) : Bool :=
  match s.reg with
  | none => true
  | some i =>
    match s.tasks[i]? with
    | none => true
    | some t => !(decide (t.st = TaskState.QUEUED) && !(decide (t.pc = WorkerPc.inPool)))

/-- Decides that every `deleted` event of the trace is delivered in a state
where `okDelete` holds. -/
def traceSafeB (s : Sys) : List Ev → Bool
  | [] => true
  | e :: tr =>
    (if e = Ev.deleted then okDelete s else true) &&
      match step s e with
      | some s1 => traceSafeB s1 tr
      | none => true

/-- `AutoOcrScheduler.shutdown` step 1 (lines 249-252): stop the watchdog
observer, so no further events are delivered. -/
def stopObserver (s : Sys) : Sys := { s with watching := false }

/-- The remainder of one pending or in-flight `process` invocation, as executed
to completion while `ThreadPoolExecutor.shutdown()` waits (lines 261-264).
Work items still queued in the pool are run by the pool before it shuts down; a
worker inside the loop or the external call continues.  A completion that finds
`last_touch` set would call `enqueue`, whose `submit` raises after the pool
shutdown began; `lateSubmit` counts that. -/
def drainOne (s : Sys) (i : ℕ) : Sys :=
  match s.tasks[i]? with
  | none => s
  | some t =>
    match t.pc with
    | .idle => s
    | .cancelled => s
    | .terminated => s
    | .running =>
      match t.last_touch with
      | none => doneT s i { t with rcs := t.rcs ++ [0], pc := .terminated }
      | some _ =>
        { s with tasks := s.tasks.set i { t with rcs := t.rcs ++ [0], pc := .terminated },
                 lateSubmit := s.lateSubmit + 1 }
    | .postCheck =>
      match t.last_touch with
      | none => doneT s i { t with pc := .terminated }
      | some _ =>
        { s with tasks := s.tasks.set i { t with pc := .terminated },
                 lateSubmit := s.lateSubmit + 1 }
    | .inPool | .loopCheck | .sleeping _ =>
      match t.last_touch with
      | none => doneT s i { t with pc := .terminated }
      | some lt =>
        doneT s i
          { t with st := .ACTIVE, last_touch := none,
                   jobs := t.jobs ++ [max s.now (lt + s.delay)],
                   rcs := t.rcs ++ [0], pc := .terminated }

/-- `ThreadPoolExecutor.shutdown()` (line 263): every submitted `process`
invocation runs to completion. -/
def drainAll (s : Sys) : Sys := (List.range s.tasks.length).foldl drainOne s

/-- `AutoOcrScheduler.shutdown` (lines 247-270) in order: stop the observer,
`cancel()` every task in a snapshot of `current_tasks`, shut the pool down
waiting for all submitted work, then join the observer (a no-op here). -/
def shutdown (s : Sys) : Sys := drainAll (cancelSys (stopObserver s))

/-- Modelled from the spec: the Worker Pool collaborator
(`concurrent.futures.ThreadPoolExecutor`, not part of this repository).
Spec section 4.3: a bounded pool of `N` execution slots accepting job closures;
a queued job starts only when fewer than `N` jobs are running; cancellation
removes a job that has not started.  The state counts queued and running
jobs. -/
structure PoolState where
  queued : ℕ
  running : ℕ
  deriving DecidableEq

/-- Modelled from the spec: transitions of the Worker Pool collaborator with
`N` slots - submitting, starting (only when a slot is free), finishing, and
cancelling a not-yet-started job. -/
inductive PoolStep (N : ℕ) : PoolState → PoolState → Prop
  | submit (q r : ℕ) : PoolStep N ⟨q, r⟩ ⟨q + 1, r⟩
  | start (q r : ℕ) : r < N → PoolStep N ⟨q + 1, r⟩ ⟨q, r + 1⟩
  | finish (q r : ℕ) : PoolStep N ⟨q, r + 1⟩ ⟨q, r⟩
  | cancel (q r : ℕ) : PoolStep N ⟨q + 1, r⟩ ⟨q, r⟩

/-- Pool states reachable from the empty pool. -/
def PoolReach (N : ℕ) (p : PoolState) : Prop :=
  Relation.ReflTransGen (PoolStep N) ⟨0, 0⟩ p

/-- A system state with the per-task exit-status logs erased, used to state
that an exit status influences nothing but its own log entry. -/
def stripRcs (s : Sys) : Sys :=
  { s with tasks := s.tasks.map (fun t => { t with rcs := [] }) }

/-- Concrete state: one task just touched at time 0 (delay 3) whose `process`
invocation has started but not yet left the top of the loop, so its state is
still `QUEUED`. -/
def taskC3 : OcrTask :=
  { st := .QUEUED, last_touch := some 0, pc := .loopCheck, jobs := [], rcs := [],
    doneCount := 0 }

/-- Concrete system state containing `taskC3`, registered. -/
def sC3 : Sys :=
  { now := 0, delay := 3, watching := true, tasks := [taskC3], reg := some 0,
    regRemovals := 0, keyErr := 0, assertFail := false, lateSubmit := 0, touches := [0] }

/-- Concrete state reached from `init 3 0` by a single `touched` event. -/
def sTouched : Sys :=
  { now := 0, delay := 3, watching := true,
    tasks := [⟨.QUEUED, some 0, .inPool, [], [], 0⟩], reg := some 0,
    regRemovals := 0, keyErr := 0, assertFail := false, lateSubmit := 0, touches := [0] }

/-- Witness trace for claim C1: touches at times 0 and 1 (gap within the
3-second window), then the worker sleeps to the recomputed due time 4 and runs
the job once. -/
def trC1 : List Ev :=
  [Ev.touched, Ev.tick 1, Ev.touched, Ev.poolStart 0, Ev.loopIter 0, Ev.tick 3,
   Ev.wake 0, Ev.loopIter 0, Ev.jobFinish 0 0, Ev.postRunCheck 0]

/-- Final state of the C1 witness trace: one job, at time 4 = 1 + 3. -/
def sC1 : Sys :=
  { now := 4, delay := 3, watching := true,
    tasks := [⟨.DONE, none, .terminated, [4], [0], 1⟩], reg := none,
    regRemovals := 1, keyErr := 0, assertFail := false, lateSubmit := 0, touches := [0, 1] }

/-- State reached from `sTouched` by a `deleted` event: pool cancellation
succeeded, task `DONE`, registry entry removed. -/
def sC4 : Sys :=
  { now := 0, delay := 3, watching := true,
    tasks := [⟨.DONE, none, .cancelled, [], [], 1⟩], reg := none,
    regRemovals := 1, keyErr := 0, assertFail := false, lateSubmit := 0, touches := [0] }

/-- Concrete task for the C5 witness: external call just returned while a
touch at time 1 is pending. -/
def taskC5 : OcrTask :=
  { st := .ACTIVE, last_touch := some 1, pc := .postCheck, jobs := [3], rcs := [0],
    doneCount := 0 }

/-- Concrete system state containing `taskC5`, registered. -/
def sC5 : Sys :=
  { now := 4, delay := 3, watching := true, tasks := [taskC5], reg := some 0,
    regRemovals := 0, keyErr := 0, assertFail := false, lateSubmit := 0, touches := [0, 1] }

/-- Concrete task for the C2 witness: external invocation executing. -/
def taskC2 : OcrTask :=
  { st := .ACTIVE, last_touch := none, pc := .running, jobs := [3], rcs := [],
    doneCount := 0 }

/-- Concrete system state containing `taskC2`, registered. -/
def sC2 : Sys :=
  { now := 3, delay := 3, watching := true, tasks := [taskC2], reg := some 0,
    regRemovals := 0, keyErr := 0, assertFail := false, lateSubmit := 0, touches := [0] }

/-- Invariant for claim C7: the `enqueue` assertion has never failed, and a
task whose worker is executing or has just executed the external invocation is
in state `ACTIVE`. -/
def Inv7 (s : Sys) : Prop :=
  s.assertFail = false
    ∧ ∀ (i : ℕ) (T : OcrTask), s.tasks[i]? = some T →
        (T.pc = WorkerPc.running ∨ T.pc = WorkerPc.postCheck) → T.st = TaskState.ACTIVE

/-- A worker position from which the coalescing loop has not been left:
submitted, at the top of the loop, or asleep. -/
def pendingPc (p : WorkerPc) : Prop :=
  p = WorkerPc.inPool ∨ p = WorkerPc.loopCheck ∨ ∃ u, p = WorkerPc.sleeping u

/-- Phase 1 of a coalesced cycle: no job has run, the pending touch is the
latest one, the task is registered and waiting (`QUEUED` or `SLEEPING`). -/
def phase1 (s : Sys) (T : OcrTask) : Prop :=
  T.jobs = [] ∧ T.last_touch = some (lastT s.touches) ∧ T.doneCount = 0
    ∧ s.reg = some 0 ∧ pendingPc T.pc
    ∧ (T.st = TaskState.QUEUED ∨ T.st = TaskState.SLEEPING)

/-- Phase 2: the single job started at `τ`, at or after the last touch plus
the delay; the task is `ACTIVE` with `last_touch` cleared. -/
def phase2 (d : Time) (s : Sys) (T : OcrTask) : Prop :=
  ∃ τ, T.jobs = [τ] ∧ lastT s.touches + d ≤ τ ∧ τ ≤ s.now
    ∧ T.last_touch = none ∧ T.doneCount = 0 ∧ s.reg = some 0
    ∧ (T.pc = WorkerPc.running ∨ T.pc = WorkerPc.postCheck) ∧ T.st = TaskState.ACTIVE

/-- Phase 3: the single job ran and the task finished - `DONE`, deregistered,
completion callback fired exactly once. -/
def phase3 (d : Time) (s : Sys) (T : OcrTask) : Prop :=
  ∃ τ, T.jobs = [τ] ∧ lastT s.touches + d ≤ τ ∧ τ ≤ s.now
    ∧ T.last_touch = none ∧ T.doneCount = 1 ∧ s.reg = none
    ∧ T.pc = WorkerPc.terminated ∧ T.st = TaskState.DONE

/-- Invariant for claim C1, over delete-free traces whose touches all fall
within the coalescing window of their predecessor. -/
def Inv1 (d : Time) (s : Sys) : Prop :=
  s.delay = d
    ∧ ((s.tasks = [] ∧ s.reg = none ∧ s.touches = [])
        ∨ ∃ T, s.tasks = [T] ∧ s.touches ≠ []
            ∧ (phase1 s T ∨ phase2 d s T ∨ phase3 d s T))

/-- Per-task part of the invariant for claim C4 after the cancellation: no job
was ever invoked, no touch is pending, the worker (which exists) can only
finish, and a finished or pool-cancelled worker left the task `DONE`. -/
def Q4 (T : OcrTask) : Prop :=
  T.jobs = [] ∧ T.last_touch = none ∧ T.pc ≠ WorkerPc.idle
    ∧ ((T.pc = WorkerPc.cancelled ∨ T.pc = WorkerPc.terminated) → T.st = TaskState.DONE)

/-- Invariant for claim C4 after the `deleted` event. -/
def Post4 (s : Sys) : Prop := ∃ T, s.tasks = [T] ∧ Q4 T

/-- Invariant for claim C6 (registry discipline), maintained on traces whose
`deleted` events never hit the queued-cancel race: the registered task (if any)
is live and has never fired its completion callback; every other task object is
`DONE`, fired its callback exactly once, and has no runnable worker left; no
`KeyError` was ever raised; the number of successful registry removals accounts
exactly for all task objects ever created minus the currently registered one;
and a worker in or just after the external call belongs to an `ACTIVE` task. -/
def Inv6 (s : Sys) : Prop :=
  (∀ i : ℕ, s.reg = some i →
      ∃ T, s.tasks[i]? = some T ∧ T.st ≠ TaskState.DONE ∧ T.doneCount = 0)
    ∧ (∀ (j : ℕ) (T : OcrTask), s.tasks[j]? = some T → s.reg ≠ some j →
        T.st = TaskState.DONE ∧ T.doneCount = 1
          ∧ (T.pc = WorkerPc.cancelled ∨ T.pc = WorkerPc.terminated))
    ∧ s.keyErr = 0
    ∧ s.regRemovals + (if s.reg.isSome then 1 else 0) = s.tasks.length
    ∧ (∀ (j : ℕ) (T : OcrTask), s.tasks[j]? = some T →
        (T.pc = WorkerPc.running ∨ T.pc = WorkerPc.postCheck) → T.st = TaskState.ACTIVE)

/-- The effect of `drainOne` on the drained task record itself (the registry
and counter side effects are handled separately): pending work runs to
completion, an in-flight call finishes, a finished or cancelled worker is left
alone. -/
def drainTask (now delay : Time) (t : OcrTask) : OcrTask :=
  match t.pc with
  | .idle => t
  | .cancelled => t
  | .terminated => t
  | .running =>
    match t.last_touch with
    | none => { t with rcs := t.rcs ++ [0], pc := .terminated, st := .DONE,
                       doneCount := t.doneCount + 1 }
    | some _ => { t with rcs := t.rcs ++ [0], pc := .terminated }
  | .postCheck =>
    match t.last_touch with
    | none => { t with pc := .terminated, st := .DONE, doneCount := t.doneCount + 1 }
    | some _ => { t with pc := .terminated }
  | .inPool | .loopCheck | .sleeping _ =>
    match t.last_touch with
    | none => { t with pc := .terminated, st := .DONE, doneCount := t.doneCount + 1 }
    | some lt =>
      { t with st := .DONE, last_touch := none,
               jobs := t.jobs ++ [max now (lt + delay)],
               rcs := t.rcs ++ [0], pc := .terminated,
               doneCount := t.doneCount + 1 }

/-- State reached by the trace of the C6 counterexample: the first task is
`DONE` (twice over), the second is `QUEUED` with its work item in the pool but
no longer registered. -/
def sC9 : Sys :=
  { now := 0, delay := 3, watching := true,
    tasks := [⟨.DONE, none, .terminated, [], [], 2⟩, ⟨.QUEUED, some 0, .inPool, [], [], 0⟩],
    reg := none, regRemovals := 2, keyErr := 0, assertFail := false, lateSubmit := 0,
    touches := [0, 0] }

/- ------------------------------------------------------------------ -/
/- Helper lemmas.                                                      -/
/- ------------------------------------------------------------------ -/

theorem onTaskDone_tasks (s : Sys) : (onTaskDone s).tasks = s.tasks := by
  unfold onTaskDone; cases s.reg <;> rfl

theorem foldl_optArgs {α : Type} (l : List (α × Option α)) (acc : List α) :
    l.foldl
      (fun args kv => (args ++ [kv.1]) ++ (match kv.2 with | some v => [v] | none => []))
      acc
      = acc ++ (l.map optArgs).flatten := by
  induction l generalizing acc with
  | nil => simp
  | cons kv r ih =>
    rw [List.foldl_cons, ih]
    cases kv with
    | mk k v => cases v <;> simp [optArgs, List.append_assoc]

theorem getElem?_set_self {α : Type} (l : List α) (n : ℕ) (a b : α)
    (h : l[n]? = some b) : (l.set n a)[n]? = some a := by
  rw [List.getElem?_set_self', h]; rfl

theorem add_max_sub (a b : ℚ) : a + max 0 (b - a) = max a b := by
  rcases le_total b a with h | h
  · rw [max_eq_left (sub_nonpos.mpr h), add_zero, max_eq_left h]
  · rw [max_eq_right (sub_nonneg.mpr h), max_eq_right h]; ring

/- ------------------------------------------------------------------ -/
/- C10: shape of get_ocrmypdf_arguments.                               -/
/- ------------------------------------------------------------------ -/

/-- C10: for every `OcrmypdfConfig`, `get_ocrmypdf_arguments` lists each option
name immediately followed by its value when the value is present and alone when
it is `None`, and ends with exactly the input path followed by the output
path. -/
theorem C10_arguments_shape {α : Type} (c : OcrmypdfConfig α) :
    get_ocrmypdf_arguments c
        = (c.options.map optArgs).flatten ++ [c.input_path, c.output_path]
      ∧ (∀ k v : α, optArgs (k, some v) = [k, v])
      ∧ (∀ k : α, optArgs (k, (none : Option α)) = [k]) := by
  refine ⟨?_, fun k v => rfl, fun k => rfl⟩
  unfold get_ocrmypdf_arguments
  rw [foldl_optArgs]
  simp [List.append_assoc]

/- ------------------------------------------------------------------ -/
/- C8: pool size.                                                      -/
/- ------------------------------------------------------------------ -/

/-- C8 counterexample: the pool size is not configurable.  The scheduler
constructor passes the literal `3` to the pool, so every environment - here
one that sets every variable to `"8"` - yields pool size 3, and as a function
of the environment the pool size is the constant 3. -/
theorem C8_counterexample :
    threadpoolMaxWorkers (fun _ => some "8") = 3
      ∧ threadpoolMaxWorkers = (fun _ => 3) := ⟨rfl, rfl⟩

/-- C8 amended: the worker pool size is the hard-coded constant 3 (not
configurable), and - for the spec-modelled pool collaborator - at most 3 jobs
execute concurrently in any reachable pool state. -/
theorem C8_pool_fixed_bound :
    (∀ env : String → Option String, threadpoolMaxWorkers env = 3)
      ∧ ∀ p : PoolState, PoolReach (threadpoolMaxWorkers (fun _ => none)) p →
          p.running ≤ 3 := by
  refine ⟨fun _ => rfl, fun p h => ?_⟩
  induction h with
  | refl => simp
  | tail _ st ih =>
    cases st with
    | submit q r => exact ih
    | start q r hr => exact hr
    | finish q r => exact Nat.le_of_succ_le ih
    | cancel q r => exact ih

/-- C8 witness: the empty pool is reachable and satisfies the bound. -/
theorem C8_witness :
    PoolReach (threadpoolMaxWorkers (fun _ => none)) ⟨0, 0⟩
      ∧ (PoolState.mk 0 0).running ≤ 3 :=
  ⟨Relation.ReflTransGen.refl,
    C8_pool_fixed_bound.2 ⟨0, 0⟩ Relation.ReflTransGen.refl⟩

/- ------------------------------------------------------------------ -/
/- C2: nonzero exit status is logged only.                             -/
/- ------------------------------------------------------------------ -/

/-- C2: when the external invocation returns a nonzero status `rc`, the return
is recorded and - apart from the recorded status itself - the resulting state
is identical to a successful return: the worker proceeds to the post-run check,
other task objects are untouched, and (when no touch is pending) the task
transitions to `DONE` through the normal path, firing the completion callback
exactly once, with no new invocation attempted. -/
theorem C2_nonzero_exit_logged_only (s : Sys) (i : ℕ) (T : OcrTask) (rc : Int)
    (hT : s.tasks[i]? = some T) (hpc : T.pc = WorkerPc.running) (hrc : rc ≠ 0) :
    ∃ s1, step s (Ev.jobFinish i rc) = some s1
      ∧ (∃ s0, step s (Ev.jobFinish i 0) = some s0 ∧ stripRcs s1 = stripRcs s0)
      ∧ s1.tasks[i]? = some { T with rcs := T.rcs ++ [rc], pc := WorkerPc.postCheck }
      ∧ (∀ j, j ≠ i → s1.tasks[j]? = s.tasks[j]?)
      ∧ (T.last_touch = none →
          ∃ s2, step s1 (Ev.postRunCheck i) = some s2
            ∧ ∃ T2, s2.tasks[i]? = some T2
                ∧ T2.st = TaskState.DONE
                ∧ T2.doneCount = T.doneCount + 1
                ∧ T2.jobs = T.jobs) := by
  obtain ⟨Tst, Tlt, Tpc, Tjobs, Trcs, Tdc⟩ := T
  obtain rfl : Tpc = WorkerPc.running := hpc
  have hstep : step s (Ev.jobFinish i rc)
      = some { s with
               tasks := s.tasks.set i ⟨Tst, Tlt, WorkerPc.postCheck, Tjobs, Trcs ++ [rc], Tdc⟩ } := by
    simp [step, hT]
  refine ⟨_, hstep,
    ⟨{ s with
       tasks := s.tasks.set i ⟨Tst, Tlt, WorkerPc.postCheck, Tjobs, Trcs ++ [(0 : Int)], Tdc⟩ },
      by simp [step, hT], ?_⟩, ?_, ?_, ?_⟩
  · simp [stripRcs, List.map_set]
  · exact getElem?_set_self _ _ _ _ hT
  · intro j hj
    exact List.getElem?_set_ne (Ne.symm hj)
  · intro hlt
    obtain rfl : Tlt = none := hlt
    have h1 : (s.tasks.set i ⟨Tst, none, WorkerPc.postCheck, Tjobs, Trcs ++ [rc], Tdc⟩)[i]?
        = some ⟨Tst, none, WorkerPc.postCheck, Tjobs, Trcs ++ [rc], Tdc⟩ :=
      getElem?_set_self _ _ _ _ hT
    refine ⟨doneT
      { s with tasks := s.tasks.set i ⟨Tst, none, WorkerPc.postCheck, Tjobs, Trcs ++ [rc], Tdc⟩ }
      i ⟨Tst, none, WorkerPc.terminated, Tjobs, Trcs ++ [rc], Tdc⟩, ?_, ?_⟩
    · simp [step, h1, doneT]
    · refine ⟨⟨TaskState.DONE, none, WorkerPc.terminated, Tjobs, Trcs ++ [rc], Tdc + 1⟩,
        ?_, rfl, rfl, rfl⟩
      show (doneT _ _ _).tasks[i]? = _
      simp only [doneT, onTaskDone_tasks, List.set_set]
      exact getElem?_set_self _ _ _ _ hT

/- ------------------------------------------------------------------ -/
/- C3: cancel on a QUEUED task whose job already started.              -/
/- ------------------------------------------------------------------ -/

/-- C3 counterexample: touch at time 0, the pool starts the job (state still
`QUEUED`), then a `deleted` event cancels.  `future.cancel()` fails, yet the
task does not proceed as if never canceled: the external job body never runs
(`jobs = []`), `done()` fires twice (`doneCount = 2`), and the second registry
removal raises `KeyError`. -/
theorem C3_counterexample :
    (run (init 3 0) [Ev.touched, Ev.poolStart 0, Ev.deleted, Ev.loopIter 0]).map
        (fun s => (s.tasks.map OcrTask.jobs, s.tasks.map OcrTask.doneCount,
                   s.keyErr, s.regRemovals))
      = some ([[]], [2], 1, 1) := by decide

/-- C3 amended: when `cancel()` hits a task that is `QUEUED` but whose
`process` invocation has already started (so `future.cancel()` has no effect),
the task does not proceed as if never canceled.  `cancel()` marks it `DONE` at
once and removes the registry entry; the running invocation then observes the
cleared `last_touch`, never invokes the external job, and calls `done()` a
second time, whose registry removal attempt raises `KeyError`. -/
theorem C3_amended_queued_cancel_race (s : Sys) (i : ℕ) (T : OcrTask)
    (hT : s.tasks[i]? = some T) (hst : T.st = TaskState.QUEUED)
    (hpc : T.pc = WorkerPc.loopCheck) (hreg : s.reg = some i) (hw : s.watching = true) :
    ∃ s2, run s [Ev.deleted, Ev.loopIter i] = some s2
      ∧ (∃ T2, s2.tasks[i]? = some T2 ∧ T2.st = TaskState.DONE
           ∧ T2.doneCount = T.doneCount + 2 ∧ T2.jobs = T.jobs ∧ T2.last_touch = none)
      ∧ s2.reg = none ∧ s2.keyErr = s.keyErr + 1
      ∧ s2.regRemovals = s.regRemovals + 1 := by
  obtain ⟨Tst, Tlt, Tpc, Tjobs, Trcs, Tdc⟩ := T
  obtain rfl : Tst = TaskState.QUEUED := hst
  obtain rfl : Tpc = WorkerPc.loopCheck := hpc
  have h1 : step s Ev.deleted
      = some { s with
               tasks := s.tasks.set i
                 ⟨TaskState.DONE, none, WorkerPc.loopCheck, Tjobs, Trcs, Tdc + 1⟩,
               reg := none, regRemovals := s.regRemovals + 1 } := by
    simp [step, hw, cancelSys, hreg, hT, doneT, onTaskDone]
  have hg1 : (s.tasks.set i
        ⟨TaskState.DONE, none, WorkerPc.loopCheck, Tjobs, Trcs, Tdc + 1⟩)[i]?
      = some ⟨TaskState.DONE, none, WorkerPc.loopCheck, Tjobs, Trcs, Tdc + 1⟩ :=
    getElem?_set_self _ _ _ _ hT
  have h2 : step ({ s with
        tasks := s.tasks.set i
          ⟨TaskState.DONE, none, WorkerPc.loopCheck, Tjobs, Trcs, Tdc + 1⟩,
        reg := none, regRemovals := s.regRemovals + 1 }) (Ev.loopIter i)
      = some { s with
               tasks := s.tasks.set i
                 ⟨TaskState.DONE, none, WorkerPc.terminated, Tjobs, Trcs, Tdc + 1 + 1⟩,
               reg := none, regRemovals := s.regRemovals + 1,
               keyErr := s.keyErr + 1 } := by
    simp [step, hg1, doneT, onTaskDone, List.set_set]
  have hrun : run s [Ev.deleted, Ev.loopIter i]
      = some { s with
               tasks := s.tasks.set i
                 ⟨TaskState.DONE, none, WorkerPc.terminated, Tjobs, Trcs, Tdc + 1 + 1⟩,
               reg := none, regRemovals := s.regRemovals + 1,
               keyErr := s.keyErr + 1 } := by
    simp [run, h1, h2]
  have hTT : ({ s with
        tasks := s.tasks.set i
          ⟨TaskState.DONE, none, WorkerPc.terminated, Tjobs, Trcs, Tdc + 1 + 1⟩,
        reg := none, regRemovals := s.regRemovals + 1,
        keyErr := s.keyErr + 1 } : Sys).tasks[i]?
      = some ⟨TaskState.DONE, none, WorkerPc.terminated, Tjobs, Trcs, Tdc + 1 + 1⟩ :=
    getElem?_set_self _ _ _ _ hT
  exact ⟨_, hrun, ⟨_, hTT, rfl, rfl, rfl, rfl⟩, rfl, rfl, rfl⟩

/-- C3 witness: the amended theorem applied to the concrete racy state. -/
theorem C3_witness :
    ∃ s2, run sC3 [Ev.deleted, Ev.loopIter 0] = some s2
      ∧ (∃ T2, s2.tasks[0]? = some T2 ∧ T2.st = TaskState.DONE
           ∧ T2.doneCount = taskC3.doneCount + 2 ∧ T2.jobs = taskC3.jobs
           ∧ T2.last_touch = none)
      ∧ s2.reg = none ∧ s2.keyErr = sC3.keyErr + 1
      ∧ s2.regRemovals = sC3.regRemovals + 1 :=
  C3_amended_queued_cancel_race sC3 0 taskC3 rfl rfl rfl rfl rfl

/- ------------------------------------------------------------------ -/
/- C5: touch during execution chains exactly one follow-up run.        -/
/- ------------------------------------------------------------------ -/

/-- C5: when the external call returns with `last_touch` non-null (the path was
touched while the job was executing), the post-run check re-enqueues the task -
state `QUEUED`, work item back in the pool, completion callback NOT fired, job
log unchanged - instead of transitioning to `DONE`; and the chained run, left
to execute with no further touches, performs exactly one additional external
invocation and only then reaches `DONE`, firing the completion callback once.
Because the statement holds at every such state, a touch arriving during the
follow-up run chains one further run in the same way. -/
theorem C5_touch_during_run_chains (s : Sys) (i : ℕ) (T : OcrTask) (t : Time)
    (hT : s.tasks[i]? = some T) (hpc : T.pc = WorkerPc.postCheck)
    (hst : T.st = TaskState.ACTIVE) (hlt : T.last_touch = some t) :
    (step s (Ev.postRunCheck i)
        = some { s with
                 tasks := s.tasks.set i
                   ({ T with st := TaskState.QUEUED, pc := WorkerPc.inPool }) })
      ∧ ∃ s2, run s [Ev.postRunCheck i, Ev.poolStart i,
              Ev.tick (max 0 (t + s.delay - s.now)), Ev.loopIter i,
              Ev.jobFinish i 0, Ev.postRunCheck i] = some s2
          ∧ ∃ T2, s2.tasks[i]? = some T2
              ∧ T2.jobs = T.jobs ++ [max s.now (t + s.delay)]
              ∧ T2.st = TaskState.DONE
              ∧ T2.doneCount = T.doneCount + 1
              ∧ T2.rcs = T.rcs ++ [(0 : Int)] := by
  obtain ⟨Tst, Tlt, Tpc, Tjobs, Trcs, Tdc⟩ := T
  obtain rfl : Tpc = WorkerPc.postCheck := hpc
  obtain rfl : Tst = TaskState.ACTIVE := hst
  obtain rfl : Tlt = some t := hlt
  have h1 : step s (Ev.postRunCheck i)
      = some { s with
               tasks := s.tasks.set i
                 ⟨TaskState.QUEUED, some t, WorkerPc.inPool, Tjobs, Trcs, Tdc⟩ } := by
    simp [step, hT, enqueueT]
  refine ⟨h1, ?_⟩
  have hg1 : (s.tasks.set i ⟨TaskState.QUEUED, some t, WorkerPc.inPool, Tjobs, Trcs, Tdc⟩)[i]?
      = some ⟨TaskState.QUEUED, some t, WorkerPc.inPool, Tjobs, Trcs, Tdc⟩ :=
    getElem?_set_self _ _ _ _ hT
  have h2 : step ({ s with
        tasks := s.tasks.set i
          ⟨TaskState.QUEUED, some t, WorkerPc.inPool, Tjobs, Trcs, Tdc⟩ }) (Ev.poolStart i)
      = some { s with
               tasks := s.tasks.set i
                 ⟨TaskState.QUEUED, some t, WorkerPc.loopCheck, Tjobs, Trcs, Tdc⟩ } := by
    simp [step, hg1, List.set_set]
  have hd0 : (0 : ℚ) ≤ max 0 (t + s.delay - s.now) := le_max_left _ _
  have h3 : step ({ s with
        tasks := s.tasks.set i
          ⟨TaskState.QUEUED, some t, WorkerPc.loopCheck, Tjobs, Trcs, Tdc⟩ })
        (Ev.tick (max 0 (t + s.delay - s.now)))
      = some { s with
               tasks := s.tasks.set i
                 ⟨TaskState.QUEUED, some t, WorkerPc.loopCheck, Tjobs, Trcs, Tdc⟩,
               now := s.now + max 0 (t + s.delay - s.now) } := by
    simp [step, hd0]
  have hg2 : (s.tasks.set i ⟨TaskState.QUEUED, some t, WorkerPc.loopCheck, Tjobs, Trcs, Tdc⟩)[i]?
      = some ⟨TaskState.QUEUED, some t, WorkerPc.loopCheck, Tjobs, Trcs, Tdc⟩ :=
    getElem?_set_self _ _ _ _ hT
  have hnow : s.now + max 0 (t + s.delay - s.now) = max s.now (t + s.delay) :=
    add_max_sub _ _
  have hdue : t + s.delay ≤ s.now + max 0 (t + s.delay - s.now) := by
    rw [hnow]; exact le_max_right _ _
  have h4 : step ({ s with
        tasks := s.tasks.set i
          ⟨TaskState.QUEUED, some t, WorkerPc.loopCheck, Tjobs, Trcs, Tdc⟩,
        now := s.now + max 0 (t + s.delay - s.now) }) (Ev.loopIter i)
      = some { s with
               tasks := s.tasks.set i
                 ⟨TaskState.ACTIVE, none, WorkerPc.running,
                  Tjobs ++ [s.now + max 0 (t + s.delay - s.now)], Trcs, Tdc⟩,
               now := s.now + max 0 (t + s.delay - s.now) } := by
    simp [step, hg2, hdue, List.set_set]
  have hg3 : (s.tasks.set i ⟨TaskState.ACTIVE, none, WorkerPc.running,
        Tjobs ++ [s.now + max 0 (t + s.delay - s.now)], Trcs, Tdc⟩)[i]?
      = some ⟨TaskState.ACTIVE, none, WorkerPc.running,
          Tjobs ++ [s.now + max 0 (t + s.delay - s.now)], Trcs, Tdc⟩ :=
    getElem?_set_self _ _ _ _ hT
  have h5 : step ({ s with
        tasks := s.tasks.set i
          ⟨TaskState.ACTIVE, none, WorkerPc.running,
           Tjobs ++ [s.now + max 0 (t + s.delay - s.now)], Trcs, Tdc⟩,
        now := s.now + max 0 (t + s.delay - s.now) }) (Ev.jobFinish i 0)
      = some { s with
               tasks := s.tasks.set i
                 ⟨TaskState.ACTIVE, none, WorkerPc.postCheck,
                  Tjobs ++ [s.now + max 0 (t + s.delay - s.now)], Trcs ++ [(0 : Int)], Tdc⟩,
               now := s.now + max 0 (t + s.delay - s.now) } := by
    simp [step, hg3, List.set_set]
  have hg4 : (s.tasks.set i ⟨TaskState.ACTIVE, none, WorkerPc.postCheck,
        Tjobs ++ [s.now + max 0 (t + s.delay - s.now)], Trcs ++ [(0 : Int)], Tdc⟩)[i]?
      = some ⟨TaskState.ACTIVE, none, WorkerPc.postCheck,
          Tjobs ++ [s.now + max 0 (t + s.delay - s.now)], Trcs ++ [(0 : Int)], Tdc⟩ :=
    getElem?_set_self _ _ _ _ hT
  have h6 : step ({ s with
        tasks := s.tasks.set i
          ⟨TaskState.ACTIVE, none, WorkerPc.postCheck,
           Tjobs ++ [s.now + max 0 (t + s.delay - s.now)], Trcs ++ [(0 : Int)], Tdc⟩,
        now := s.now + max 0 (t + s.delay - s.now) }) (Ev.postRunCheck i)
      = some (doneT ({ s with
          tasks := s.tasks.set i
            ⟨TaskState.ACTIVE, none, WorkerPc.postCheck,
             Tjobs ++ [s.now + max 0 (t + s.delay - s.now)], Trcs ++ [(0 : Int)], Tdc⟩,
          now := s.now + max 0 (t + s.delay - s.now) }) i
          ⟨TaskState.ACTIVE, none, WorkerPc.terminated,
           Tjobs ++ [s.now + max 0 (t + s.delay - s.now)], Trcs ++ [(0 : Int)], Tdc⟩) := by
    simp [step, hg4]
  have hrun : run s [Ev.postRunCheck i, Ev.poolStart i,
        Ev.tick (max 0 (t + s.delay - s.now)), Ev.loopIter i,
        Ev.jobFinish i 0, Ev.postRunCheck i]
      = some (doneT ({ s with
          tasks := s.tasks.set i
            ⟨TaskState.ACTIVE, none, WorkerPc.postCheck,
             Tjobs ++ [s.now + max 0 (t + s.delay - s.now)], Trcs ++ [(0 : Int)], Tdc⟩,
          now := s.now + max 0 (t + s.delay - s.now) }) i
          ⟨TaskState.ACTIVE, none, WorkerPc.terminated,
           Tjobs ++ [s.now + max 0 (t + s.delay - s.now)], Trcs ++ [(0 : Int)], Tdc⟩) := by
    simp only [run, h1, h2, h3, h4, h5, h6, Option.bind_some, Option.some_bind]
  have hTT : (doneT ({ s with
        tasks := s.tasks.set i
          ⟨TaskState.ACTIVE, none, WorkerPc.postCheck,
           Tjobs ++ [s.now + max 0 (t + s.delay - s.now)], Trcs ++ [(0 : Int)], Tdc⟩,
        now := s.now + max 0 (t + s.delay - s.now) }) i
        ⟨TaskState.ACTIVE, none, WorkerPc.terminated,
         Tjobs ++ [s.now + max 0 (t + s.delay - s.now)], Trcs ++ [(0 : Int)], Tdc⟩).tasks[i]?
      = some ⟨TaskState.DONE, none, WorkerPc.terminated,
          Tjobs ++ [s.now + max 0 (t + s.delay - s.now)], Trcs ++ [(0 : Int)], Tdc + 1⟩ := by
    simp only [doneT, onTaskDone_tasks, List.set_set]
    exact getElem?_set_self _ _ _ _ hT
  refine ⟨_, hrun, ⟨_, hTT, ?_, rfl, rfl, rfl⟩⟩
  show Tjobs ++ [s.now + max 0 (t + s.delay - s.now)] = Tjobs ++ [max s.now (t + s.delay)]
  rw [hnow]

/- ------------------------------------------------------------------ -/
/- Generic induction over runs and per-task invariant helpers.         -/
/- ------------------------------------------------------------------ -/

theorem run_induct (P : Sys → Prop)
    (hstep : ∀ s e s', P s → step s e = some s' → P s') :
    ∀ tr s s', P s → run s tr = some s' → P s' := by
  intro tr
  induction tr with
  | nil =>
    intro s s' h hr
    simp only [run, Option.some.injEq] at hr
    exact hr ▸ h
  | cons e tr ih =>
    intro s s' h hr
    simp only [run] at hr
    rcases Option.bind_eq_some.mp hr with ⟨s1, h1, h2⟩
    exact ih s1 s' (hstep s e s1 h h1) h2

theorem forall_tasks_set {Q : OcrTask → Prop} {l : List OcrTask}
    (h : ∀ (j : ℕ) (T : OcrTask), l[j]? = some T → Q T) (i : ℕ) {t : OcrTask} (ht : Q t) :
    ∀ (j : ℕ) (T : OcrTask), (l.set i t)[j]? = some T → Q T := by
  intro j T hj
  rcases eq_or_ne i j with rfl | hne
  · rw [List.getElem?_set_self'] at hj
    rcases hl : l[i]? with _ | u
    · rw [hl] at hj; simp at hj
    · rw [hl] at hj
      simp only [Option.map_eq_map, Option.map_some, Option.some.injEq] at hj
      exact hj ▸ ht
  · rw [List.getElem?_set_ne hne] at hj
    exact h j T hj

theorem forall_tasks_append {Q : OcrTask → Prop} {l : List OcrTask}
    (h : ∀ (j : ℕ) (T : OcrTask), l[j]? = some T → Q T) {t : OcrTask} (ht : Q t) :
    ∀ (j : ℕ) (T : OcrTask), (l ++ [t])[j]? = some T → Q T := by
  intro j T hj
  rcases lt_or_ge j l.length with hlen | hlen
  · rw [List.getElem?_append_left hlen] at hj
    exact h j T hj
  · rw [List.getElem?_append_right hlen] at hj
    rcases Nat.eq_or_lt_of_le hlen with heq | hlt
    · rw [← heq, Nat.sub_self] at hj
      simp only [List.getElem?_cons_zero, Option.some.injEq] at hj
      exact hj ▸ ht
    · rw [List.getElem?_eq_none] at hj
      · cases hj
      · simp [Nat.sub_ne_zero_of_lt hlt]
        omega

theorem touchT_ok (n : Time) (t : OcrTask) : (touchT n t).2 = true := by
  by_cases ht : t.st = TaskState.NEW <;> simp [touchT, enqueueT, ht]

theorem touchT_fst (n : Time) (t : OcrTask) :
    (touchT n t).1 = { t with last_touch := some n }
      ∨ (touchT n t).1
          = { t with last_touch := some n, st := TaskState.QUEUED, pc := WorkerPc.inPool } := by
  by_cases ht : t.st = TaskState.NEW
  · right; simp [touchT, enqueueT, ht]
  · left; simp [touchT, ht]

theorem onTaskDone_assertFail (s : Sys) : (onTaskDone s).assertFail = s.assertFail := by
  unfold onTaskDone; cases s.reg <;> rfl

/- ------------------------------------------------------------------ -/
/- C7: the enqueue assertion never fails.                              -/
/- ------------------------------------------------------------------ -/

theorem Inv7_step : ∀ s e s', Inv7 s → step s e = some s' → Inv7 s' := by
  intro s e s' h hstep
  obtain ⟨hA, hQ⟩ := h
  cases e with
  | touched =>
    simp only [step] at hstep
    split at hstep
    case isFalse => cases hstep
    case isTrue hw =>
      split at hstep
      case h_1 i hreg =>
        split at hstep
        case h_1 => cases hstep
        case h_2 t hget =>
          obtain rfl := Option.some.inj hstep
          refine ⟨?_, ?_⟩
          · simp [touchT_ok, hA]
          · refine forall_tasks_set hQ i ?_
            rcases touchT_fst _ t with he | he <;> rw [he]
            · intro hpc
              exact hQ i t hget hpc
            · intro hpc
              rcases hpc with h2 | h2 <;> simp at h2
      case h_2 hreg =>
        obtain rfl := Option.some.inj hstep
        refine ⟨?_, ?_⟩
        · simp [touchT_ok, hA]
        · refine forall_tasks_append hQ ?_
          simp [touchT, initTask, enqueueT]
  | deleted =>
    simp only [step] at hstep
    split at hstep
    case isFalse => cases hstep
    case isTrue hw =>
      obtain rfl := Option.some.inj hstep
      unfold cancelSys
      split
      case h_1 => exact ⟨hA, hQ⟩
      case h_2 i hreg =>
        split
        case h_1 => exact ⟨hA, hQ⟩
        case h_2 t hget =>
          split
          case isTrue hq =>
            unfold doneT
            refine ⟨by simp [onTaskDone_assertFail, hA], ?_⟩
            rw [onTaskDone_tasks]
            refine forall_tasks_set hQ i ?_
            intro hpc
            rcases hpc with hpc | hpc <;> simp at hpc <;>
              · split at hpc
                · cases hpc
                · exact absurd (hQ i t hget (by simp [hpc])) (by rw [hq]; simp)
          case isFalse hq =>
            refine ⟨hA, forall_tasks_set hQ i ?_⟩
            intro hpc
            exact hQ i t hget hpc
  | tick d =>
    simp only [step] at hstep
    split at hstep
    · obtain rfl := Option.some.inj hstep
      exact ⟨hA, hQ⟩
    · cases hstep
  | poolStart i =>
    simp only [step] at hstep
    split at hstep
    case h_2 => cases hstep
    case h_1 t hget =>
      split at hstep
      case isFalse => cases hstep
      case isTrue hpc =>
        obtain rfl := Option.some.inj hstep
        refine ⟨hA, forall_tasks_set hQ i ?_⟩
        intro h2
        rcases h2 with h2 | h2 <;> simp at h2
  | wake i =>
    simp only [step] at hstep
    split at hstep
    case h_2 => cases hstep
    case h_1 t hget =>
      split at hstep
      case h_2 => cases hstep
      case h_1 due hpc =>
        split at hstep
        case isFalse => cases hstep
        case isTrue =>
          obtain rfl := Option.some.inj hstep
          refine ⟨hA, forall_tasks_set hQ i ?_⟩
          intro h2
          rcases h2 with h2 | h2 <;> simp at h2
  | loopIter i =>
    simp only [step] at hstep
    split at hstep
    case h_2 => cases hstep
    case h_1 t hget =>
      split at hstep
      case isFalse => cases hstep
      case isTrue hpc =>
        split at hstep
        case h_1 hlt =>
          obtain rfl := Option.some.inj hstep
          unfold doneT
          refine ⟨by simp [onTaskDone_assertFail, hA], ?_⟩
          rw [onTaskDone_tasks]
          refine forall_tasks_set hQ i ?_
          intro h2
          rcases h2 with h2 | h2 <;> simp at h2
        case h_2 lt hlt =>
          split at hstep
          case isTrue hdue =>
            obtain rfl := Option.some.inj hstep
            refine ⟨hA, forall_tasks_set hQ i ?_⟩
            intro h2
            rfl
          case isFalse hdue =>
            obtain rfl := Option.some.inj hstep
            refine ⟨hA, forall_tasks_set hQ i ?_⟩
            intro h2
            rcases h2 with h2 | h2 <;> simp at h2
  | jobFinish i rc =>
    simp only [step] at hstep
    split at hstep
    case h_2 => cases hstep
    case h_1 t hget =>
      split at hstep
      case isFalse => cases hstep
      case isTrue hpc =>
        obtain rfl := Option.some.inj hstep
        refine ⟨hA, forall_tasks_set hQ i ?_⟩
        intro h2
        exact hQ i t hget (Or.inl hpc)
  | postRunCheck i =>
    simp only [step] at hstep
    split at hstep
    case h_2 => cases hstep
    case h_1 t hget =>
      split at hstep
      case isFalse => cases hstep
      case isTrue hpc =>
        have hact : t.st = TaskState.ACTIVE := hQ i t hget (Or.inr hpc)
        split at hstep
        case h_1 lt hlt =>
          obtain rfl := Option.some.inj hstep
          have hok : enqueueT t = ({ t with st := TaskState.QUEUED, pc := WorkerPc.inPool }, true) := by
            unfold enqueueT
            rw [if_pos (Or.inr hact)]
          refine ⟨by simp [hok, hA], ?_⟩
          refine forall_tasks_set hQ i ?_
          simp only [hok]
          intro h2
          rcases h2 with h2 | h2 <;> simp at h2
        case h_2 hlt =>
          obtain rfl := Option.some.inj hstep
          unfold doneT
          refine ⟨by simp [onTaskDone_assertFail, hA], ?_⟩
          rw [onTaskDone_tasks]
          refine forall_tasks_set hQ i ?_
          intro h2
          rcases h2 with h2 | h2 <;> simp at h2

/-- C7: along every run from the initial state, `enqueue` is only ever called
with the task in state `NEW` or `ACTIVE` - the assertion never fails - and its
effect is to set the state to `QUEUED` and hand the job closure to the pool. -/
theorem C7_enqueue_assert_safe (d t0 : Time) (tr : List Ev) (s : Sys)
    (hrun : run (init d t0) tr = some s) :
    s.assertFail = false
      ∧ (∀ (i : ℕ) (T : OcrTask), s.tasks[i]? = some T →
          (T.pc = WorkerPc.running ∨ T.pc = WorkerPc.postCheck) → T.st = TaskState.ACTIVE)
      ∧ (∀ t : OcrTask, t.st = TaskState.NEW ∨ t.st = TaskState.ACTIVE →
          enqueueT t = ({ t with st := TaskState.QUEUED, pc := WorkerPc.inPool }, true)) := by
  have hinv : Inv7 s := by
    refine run_induct Inv7 Inv7_step tr (init d t0) s ⟨rfl, ?_⟩ hrun
    intro i T h
    simp [init] at h
  refine ⟨hinv.1, hinv.2, ?_⟩
  intro t ht
  unfold enqueueT
  rw [if_pos ht]

/- ------------------------------------------------------------------ -/
/- Trace-filtered induction and touch-log lemmas.                      -/
/- ------------------------------------------------------------------ -/

theorem run_induct_on (P : Sys → Prop) (Q : Ev → Prop)
    (hstep : ∀ s e s', P s → Q e → step s e = some s' → P s') :
    ∀ tr, (∀ e ∈ tr, Q e) → ∀ s s', P s → run s tr = some s' → P s' := by
  intro tr
  induction tr with
  | nil =>
    intro _ s s' h hr
    simp only [run, Option.some.injEq] at hr
    exact hr ▸ h
  | cons e tr ih =>
    intro hQ s s' h hr
    simp only [run] at hr
    rcases Option.bind_eq_some.mp hr with ⟨s1, h1, h2⟩
    exact ih (fun x hx => hQ x (List.mem_cons_of_mem e hx)) s1 s'
      (hstep s e s1 h (hQ e (List.mem_cons_self e tr)) h1) h2

theorem singleton_get {T t : OcrTask} {i : ℕ} (h : ([T] : List OcrTask)[i]? = some t) :
    i = 0 ∧ t = T := by
  cases i with
  | zero => simp at h; exact ⟨rfl, h.symm⟩
  | succ n => simp at h

theorem lastT_concat (l : List Time) (x : Time) : lastT (l ++ [x]) = x := by
  induction l with
  | nil => rfl
  | cons a r ih =>
    cases r with
    | nil => rfl
    | cons b r2 => simpa [lastT] using ih

theorem withinGapsB_concat (d : Time) (l : List Time) (x : Time)
    (h : withinGapsB d (l ++ [x]) = true) :
    withinGapsB d l = true ∧ (l = [] ∨ x < lastT l + d) := by
  induction l with
  | nil => exact ⟨rfl, Or.inl rfl⟩
  | cons a r ih =>
    cases r with
    | nil =>
      simp only [List.cons_append, List.nil_append, withinGapsB, Bool.and_eq_true,
        decide_eq_true_eq] at h
      exact ⟨rfl, Or.inr h.1⟩
    | cons b r2 =>
      simp only [List.cons_append, withinGapsB, Bool.and_eq_true, decide_eq_true_eq] at h
      obtain ⟨h1, h2⟩ := h
      obtain ⟨hg, hx⟩ := ih h2
      refine ⟨by simp [withinGapsB, h1, hg], ?_⟩
      right
      rcases hx with he | hx
      · cases he
      · simpa [lastT] using hx

theorem onTaskDone_touches (s : Sys) : (onTaskDone s).touches = s.touches := by
  unfold onTaskDone; cases s.reg <;> rfl

theorem onTaskDone_now (s : Sys) : (onTaskDone s).now = s.now := by
  unfold onTaskDone; cases s.reg <;> rfl

theorem onTaskDone_delay (s : Sys) : (onTaskDone s).delay = s.delay := by
  unfold onTaskDone; cases s.reg <;> rfl

theorem cancelSys_touches (s : Sys) : (cancelSys s).touches = s.touches := by
  unfold cancelSys
  split
  · rfl
  · split
    · rfl
    · split
      · rw [doneT, onTaskDone_touches]
      · rfl

theorem step_touches (s : Sys) (e : Ev) (s' : Sys) (h : step s e = some s') :
    s'.touches = s.touches ∨ s'.touches = s.touches ++ [s.now] := by
  cases e with
  | touched =>
    simp only [step] at h
    split at h
    case isFalse => cases h
    case isTrue =>
      split at h
      case h_1 =>
        split at h
        case h_1 => cases h
        case h_2 => obtain rfl := Option.some.inj h; right; rfl
      case h_2 => obtain rfl := Option.some.inj h; right; rfl
  | deleted =>
    simp only [step] at h
    split at h
    case isFalse => cases h
    case isTrue =>
      obtain rfl := Option.some.inj h
      left; exact cancelSys_touches s
  | tick dd =>
    simp only [step] at h
    split at h
    · obtain rfl := Option.some.inj h; left; rfl
    · cases h
  | poolStart i =>
    simp only [step] at h
    split at h
    case h_2 => cases h
    case h_1 =>
      split at h
      case isFalse => cases h
      case isTrue => obtain rfl := Option.some.inj h; left; rfl
  | wake i =>
    simp only [step] at h
    split at h
    case h_2 => cases h
    case h_1 =>
      split at h
      case h_2 => cases h
      case h_1 =>
        split at h
        case isFalse => cases h
        case isTrue => obtain rfl := Option.some.inj h; left; rfl
  | loopIter i =>
    simp only [step] at h
    split at h
    case h_2 => cases h
    case h_1 =>
      split at h
      case isFalse => cases h
      case isTrue =>
        split at h
        case h_1 =>
          obtain rfl := Option.some.inj h
          left; rw [doneT, onTaskDone_touches]
        case h_2 =>
          split at h <;> (obtain rfl := Option.some.inj h; left; rfl)
  | jobFinish i rc =>
    simp only [step] at h
    split at h
    case h_2 => cases h
    case h_1 =>
      split at h
      case isFalse => cases h
      case isTrue => obtain rfl := Option.some.inj h; left; rfl
  | postRunCheck i =>
    simp only [step] at h
    split at h
    case h_2 => cases h
    case h_1 =>
      split at h
      case isFalse => cases h
      case isTrue =>
        split at h
        case h_1 => obtain rfl := Option.some.inj h; left; rfl
        case h_2 =>
          obtain rfl := Option.some.inj h
          left; rw [doneT, onTaskDone_touches]

/- ------------------------------------------------------------------ -/
/- C1: preservation of the coalescing invariant.                       -/
/- ------------------------------------------------------------------ -/

theorem onTaskDone_of_reg_some {s : Sys} {j : ℕ} (h : s.reg = some j) :
    onTaskDone s = { s with reg := none, regRemovals := s.regRemovals + 1 } := by
  unfold onTaskDone; rw [h]

theorem onTaskDone_of_reg_none {s : Sys} (h : s.reg = none) :
    onTaskDone s = { s with keyErr := s.keyErr + 1 } := by
  unfold onTaskDone; rw [h]

theorem Inv1_step (d : Time) :
    ∀ s e s', (withinGapsB d s.touches = true → Inv1 d s) → isDeleted e = false →
      step s e = some s' → (withinGapsB d s'.touches = true → Inv1 d s') := by
  intro s e s' h hdel hstep hgap'
  have hgap : withinGapsB d s.touches = true := by
    rcases step_touches s e s' hstep with he | he
    · rw [he] at hgap'; exact hgap'
    · exact (withinGapsB_concat d _ _ (by rw [← he]; exact hgap')).1
  obtain ⟨hd, hbig⟩ := h hgap
  cases e with
  | deleted => cases hdel
  | tick dd =>
    simp only [step] at hstep
    split at hstep
    case isFalse => cases hstep
    case isTrue hdd =>
      obtain rfl := Option.some.inj hstep
      refine ⟨hd, ?_⟩
      rcases hbig with ⟨ht, hr, htc⟩ | ⟨T, htasks, hne, hph⟩
      · exact Or.inl ⟨ht, hr, htc⟩
      · refine Or.inr ⟨T, htasks, hne, ?_⟩
        rcases hph with h1 | h2 | h3
        · exact Or.inl h1
        · obtain ⟨τ, hj, hb, hτ, hrest⟩ := h2
          exact Or.inr (Or.inl ⟨τ, hj, hb, le_trans hτ (le_add_of_nonneg_right hdd), hrest⟩)
        · obtain ⟨τ, hj, hb, hτ, hrest⟩ := h3
          exact Or.inr (Or.inr ⟨τ, hj, hb, le_trans hτ (le_add_of_nonneg_right hdd), hrest⟩)
  | touched =>
    simp only [step] at hstep
    split at hstep
    case isFalse => cases hstep
    case isTrue hw =>
      split at hstep
      case h_1 i hreg =>
        split at hstep
        case h_1 hget => cases hstep
        case h_2 t hget =>
          obtain rfl := Option.some.inj hstep
          rcases hbig with ⟨ht, hr, htc⟩ | ⟨T, htasks, hne, hph⟩
          · rw [hr] at hreg; cases hreg
          · rw [htasks] at hget
            obtain ⟨rfl, rfl⟩ := singleton_get hget
            have hx : s.touches = [] ∨ s.now < lastT s.touches + d :=
              (withinGapsB_concat d s.touches s.now hgap').2
            rcases hph with h1 | h2 | h3
            · obtain ⟨hj, hlt, hdc, hrg, hpend, hst⟩ := h1
              have hnotnew : t.st ≠ TaskState.NEW := by
                rcases hst with hst | hst <;> rw [hst] <;> simp
              have htt : touchT s.now t = ({ t with last_touch := some s.now }, true) := by
                unfold touchT
                simp [hnotnew]
              refine ⟨hd, Or.inr ⟨{ t with last_touch := some s.now }, ?_, ?_, Or.inl ?_⟩⟩
              · simp [htasks, htt]
              · simp
              · refine ⟨hj, ?_, hdc, hrg, hpend, hst⟩
                simp [lastT_concat]
            · obtain ⟨τ, hj, hb, hτ, hlt, hdc, hrg, hpc, hst⟩ := h2
              rcases hx with hx | hx
              · exact absurd hx hne
              · exact absurd (lt_of_le_of_lt (le_trans hb hτ) hx) (lt_irrefl _)
            · obtain ⟨τ, hj, hb, hτ, hlt, hdc, hrg, hpc, hst⟩ := h3
              rw [hrg] at hreg
              cases hreg
      case h_2 hreg =>
        obtain rfl := Option.some.inj hstep
        rcases hbig with ⟨ht, hr, htc⟩ | ⟨T, htasks, hne, hph⟩
        · refine ⟨hd, Or.inr ⟨⟨TaskState.QUEUED, some s.now, WorkerPc.inPool, [], [], 0⟩,
            ?_, by simp, Or.inl ?_⟩⟩
          · rw [ht]
            simp [touchT, initTask, enqueueT]
          · refine ⟨rfl, ?_, rfl, ?_, Or.inl rfl, Or.inl rfl⟩
            · rw [htc]
              rfl
            · rw [ht]
              rfl
        · have hx : s.touches = [] ∨ s.now < lastT s.touches + d :=
            (withinGapsB_concat d s.touches s.now hgap').2
          rcases hph with h1 | h2 | h3
          · obtain ⟨hj, hlt, hdc, hrg, hpend, hst⟩ := h1
            rw [hrg] at hreg; cases hreg
          · obtain ⟨τ, hj, hb, hτ, hlt, hdc, hrg, hpc, hst⟩ := h2
            rw [hrg] at hreg; cases hreg
          · obtain ⟨τ, hj, hb, hτ, hlt, hdc, hrg, hpc, hst⟩ := h3
            rcases hx with hx | hx
            · exact absurd hx hne
            · exact absurd (lt_of_le_of_lt (le_trans hb hτ) hx) (lt_irrefl _)
  | poolStart i =>
    simp only [step] at hstep
    split at hstep
    case h_2 => cases hstep
    case h_1 t hget =>
      split at hstep
      case isFalse => cases hstep
      case isTrue hpc =>
        obtain rfl := Option.some.inj hstep
        rcases hbig with ⟨ht, hr, htc⟩ | ⟨T, htasks, hne, hph⟩
        · rw [ht] at hget; cases hget
        · rw [htasks] at hget
          obtain ⟨rfl, rfl⟩ := singleton_get hget
          rcases hph with h1 | h2 | h3
          · obtain ⟨hj, hlt, hdc, hrg, hpend, hst⟩ := h1
            refine ⟨hd, Or.inr ⟨{ t with pc := WorkerPc.loopCheck }, by rw [htasks]; rfl, hne,
              Or.inl ⟨hj, hlt, hdc, hrg, Or.inr (Or.inl rfl), hst⟩⟩⟩
          · obtain ⟨τ, hj, hb, hτ, hlt, hdc, hrg, hpc2, hst⟩ := h2
            rcases hpc2 with h2 | h2 <;> rw [h2] at hpc <;> cases hpc
          · obtain ⟨τ, hj, hb, hτ, hlt, hdc, hrg, hpc2, hst⟩ := h3
            rw [hpc2] at hpc; cases hpc
  | wake i =>
    simp only [step] at hstep
    split at hstep
    case h_2 => cases hstep
    case h_1 t hget =>
      split at hstep
      case h_2 => cases hstep
      case h_1 due hpc =>
        split at hstep
        case isFalse => cases hstep
        case isTrue hdue =>
          obtain rfl := Option.some.inj hstep
          rcases hbig with ⟨ht, hr, htc⟩ | ⟨T, htasks, hne, hph⟩
          · rw [ht] at hget; cases hget
          · rw [htasks] at hget
            obtain ⟨rfl, rfl⟩ := singleton_get hget
            rcases hph with h1 | h2 | h3
            · obtain ⟨hj, hlt, hdc, hrg, hpend, hst⟩ := h1
              refine ⟨hd, Or.inr ⟨{ t with pc := WorkerPc.loopCheck }, by rw [htasks]; rfl, hne,
                Or.inl ⟨hj, hlt, hdc, hrg, Or.inr (Or.inl rfl), hst⟩⟩⟩
            · obtain ⟨τ, hj, hb, hτ, hlt, hdc, hrg, hpc2, hst⟩ := h2
              rcases hpc2 with h2 | h2 <;> rw [h2] at hpc <;> cases hpc
            · obtain ⟨τ, hj, hb, hτ, hlt, hdc, hrg, hpc2, hst⟩ := h3
              rw [hpc2] at hpc; cases hpc
  | loopIter i =>
    simp only [step] at hstep
    split at hstep
    case h_2 => cases hstep
    case h_1 t hget =>
      split at hstep
      case isFalse => cases hstep
      case isTrue hpc =>
        split at hstep
        case h_1 hlt0 =>
          exfalso
          rcases hbig with ⟨ht, hr, htc⟩ | ⟨T, htasks, hne, hph⟩
          · rw [ht] at hget; cases hget
          · rw [htasks] at hget
            obtain ⟨rfl, rfl⟩ := singleton_get hget
            rcases hph with h1 | h2 | h3
            · rw [h1.2.1] at hlt0; cases hlt0
            · obtain ⟨τ, hj, hb, hτ, hlt, hdc, hrg, hpc2, hst⟩ := h2
              rcases hpc2 with h2 | h2 <;> rw [h2] at hpc <;> cases hpc
            · obtain ⟨τ, hj, hb, hτ, hlt, hdc, hrg, hpc2, hst⟩ := h3
              rw [hpc2] at hpc; cases hpc
        case h_2 lt0 hlt0 =>
          rcases hbig with ⟨ht, hr, htc⟩ | ⟨T, htasks, hne, hph⟩
          · rw [ht] at hget; cases hget
          · rw [htasks] at hget
            obtain ⟨rfl, rfl⟩ := singleton_get hget
            rcases hph with h1 | h2 | h3
            · obtain ⟨hj, hlt, hdc, hrg, hpend, hst⟩ := h1
              have hlt0e : lt0 = lastT s.touches := by
                rw [hlt] at hlt0
                exact (Option.some.inj hlt0).symm
              split at hstep
              case isTrue hdue =>
                obtain rfl := Option.some.inj hstep
                refine ⟨hd, Or.inr ⟨⟨TaskState.ACTIVE, none, WorkerPc.running,
                  t.jobs ++ [s.now], t.rcs, t.doneCount⟩, by rw [htasks]; rfl, hne,
                  Or.inr (Or.inl ⟨s.now, ?_, ?_, le_refl _, rfl, hdc, hrg, Or.inl rfl, rfl⟩)⟩⟩
                · rw [hj]; rfl
                · rw [← hlt0e, ← hd]
                  exact hdue
              case isFalse hdue =>
                obtain rfl := Option.some.inj hstep
                refine ⟨hd, Or.inr
                  ⟨⟨TaskState.SLEEPING, t.last_touch, WorkerPc.sleeping (lt0 + s.delay),
                     t.jobs, t.rcs, t.doneCount⟩, by rw [htasks]; rfl, hne,
                   Or.inl ⟨hj, hlt, hdc, hrg, Or.inr (Or.inr ⟨_, rfl⟩), Or.inr rfl⟩⟩⟩
            · obtain ⟨τ, hj, hb, hτ, hlt, hdc, hrg, hpc2, hst⟩ := h2
              rcases hpc2 with h2 | h2 <;> rw [h2] at hpc <;> cases hpc
            · obtain ⟨τ, hj, hb, hτ, hlt, hdc, hrg, hpc2, hst⟩ := h3
              rw [hpc2] at hpc; cases hpc
  | jobFinish i rc =>
    simp only [step] at hstep
    split at hstep
    case h_2 => cases hstep
    case h_1 t hget =>
      split at hstep
      case isFalse => cases hstep
      case isTrue hpc =>
        obtain rfl := Option.some.inj hstep
        rcases hbig with ⟨ht, hr, htc⟩ | ⟨T, htasks, hne, hph⟩
        · rw [ht] at hget; cases hget
        · rw [htasks] at hget
          obtain ⟨rfl, rfl⟩ := singleton_get hget
          rcases hph with h1 | h2 | h3
          · obtain ⟨hj, hlt, hdc, hrg, hpend, hst⟩ := h1
            exfalso
            rcases hpend with h2 | h2 | ⟨u, h2⟩ <;> rw [h2] at hpc <;> cases hpc
          · obtain ⟨τ, hj, hb, hτ, hlt, hdc, hrg, hpc2, hst⟩ := h2
            refine ⟨hd, Or.inr ⟨{ t with rcs := t.rcs ++ [rc], pc := WorkerPc.postCheck },
              by rw [htasks]; rfl, hne,
              Or.inr (Or.inl ⟨τ, hj, hb, hτ, hlt, hdc, hrg, Or.inr rfl, hst⟩)⟩⟩
          · obtain ⟨τ, hj, hb, hτ, hlt, hdc, hrg, hpc2, hst⟩ := h3
            rw [hpc2] at hpc; cases hpc
  | postRunCheck i =>
    simp only [step] at hstep
    split at hstep
    case h_2 => cases hstep
    case h_1 t hget =>
      split at hstep
      case isFalse => cases hstep
      case isTrue hpc =>
        split at hstep
        case h_1 lt0 hlt0 =>
          exfalso
          rcases hbig with ⟨ht, hr, htc⟩ | ⟨T, htasks, hne, hph⟩
          · rw [ht] at hget; cases hget
          · rw [htasks] at hget
            obtain ⟨rfl, rfl⟩ := singleton_get hget
            rcases hph with h1 | h2 | h3
            · obtain ⟨hj, hlt, hdc, hrg, hpend, hst⟩ := h1
              rcases hpend with h2 | h2 | ⟨u, h2⟩ <;> rw [h2] at hpc <;> cases hpc
            · obtain ⟨τ, hj, hb, hτ, hlt, hdc, hrg, hpc2, hst⟩ := h2
              rw [hlt] at hlt0; cases hlt0
            · obtain ⟨τ, hj, hb, hτ, hlt, hdc, hrg, hpc2, hst⟩ := h3
              rw [hpc2] at hpc; cases hpc
        case h_2 hlt0 =>
          rcases hbig with ⟨ht, hr, htc⟩ | ⟨T, htasks, hne, hph⟩
          · rw [ht] at hget; cases hget
          · rw [htasks] at hget
            obtain ⟨rfl, rfl⟩ := singleton_get hget
            rcases hph with h1 | h2 | h3
            · obtain ⟨hj, hlt, hdc, hrg, hpend, hst⟩ := h1
              exfalso
              rcases hpend with h2 | h2 | ⟨u, h2⟩ <;> rw [h2] at hpc <;> cases hpc
            · obtain ⟨τ, hj, hb, hτ, hlt, hdc, hrg, hpc2, hst⟩ := h2
              obtain rfl := Option.some.inj hstep
              rw [doneT, onTaskDone_of_reg_some (by exact hrg)]
              refine ⟨hd, Or.inr ⟨⟨TaskState.DONE, t.last_touch, WorkerPc.terminated,
                t.jobs, t.rcs, t.doneCount + 1⟩, by rw [htasks]; rfl, hne,
                Or.inr (Or.inr ⟨τ, hj, hb, hτ, hlt, by rw [hdc], rfl, rfl, rfl⟩)⟩⟩
            · obtain ⟨τ, hj, hb, hτ, hlt, hdc, hrg, hpc2, hst⟩ := h3
              exfalso
              rw [hpc2] at hpc; cases hpc

/-- C1: for every delete-free trace whose touches each fall strictly within the
coalescing delay of their predecessor, every external-job invocation starts at
or after (time of last touch + delay), at most one invocation ever starts, a
task observed `DONE` implies the invocation happened exactly once, and the
coalescing delay defaults to 3.0 seconds when `OCR_PROCESSING_DELAY` is
unset. -/
theorem C1_coalesced_touches_fire_once (d t0 : Time) (tr : List Ev) (s : Sys)
    (hrun : run (init d t0) tr = some s)
    (hnd : noDeleteB tr = true)
    (hne : s.touches ≠ [])
    (hgap : withinGapsB d s.touches = true) :
    (∀ τ ∈ allJobs s, lastT s.touches + d ≤ τ)
      ∧ (allJobs s).length ≤ 1
      ∧ (∀ (i : ℕ) (T : OcrTask), s.tasks[i]? = some T → T.st = TaskState.DONE →
          (allJobs s).length = 1)
      ∧ COALESCING_DELAY none = 3 := by
  have hinv : Inv1 d s := by
    have hP := run_induct_on (fun s => withinGapsB d s.touches = true → Inv1 d s)
      (fun e => isDeleted e = false) (Inv1_step d) tr
      (fun e he => by
        have := (List.all_eq_true.mp hnd) e he
        simpa using this)
      (init d t0) s (fun _ => ⟨rfl, Or.inl ⟨rfl, rfl, rfl⟩⟩) hrun
    exact hP hgap
  obtain ⟨hdel, hbig⟩ := hinv
  rcases hbig with ⟨ht, hr, htc⟩ | ⟨T, htasks, hne2, hph⟩
  · exact absurd htc hne
  · have hall : allJobs s = T.jobs := by
      rw [allJobs, htasks]; simp
    refine ⟨?_, ?_, ?_, rfl⟩
    · intro τ hτ
      rw [hall] at hτ
      rcases hph with h1 | h2 | h3
      · rw [h1.1] at hτ; simp at hτ
      · obtain ⟨τ0, hj, hb, hrest⟩ := h2
        rw [hj] at hτ
        simp at hτ
        exact hτ ▸ hb
      · obtain ⟨τ0, hj, hb, hrest⟩ := h3
        rw [hj] at hτ
        simp at hτ
        exact hτ ▸ hb
    · rw [hall]
      rcases hph with h1 | h2 | h3
      · rw [h1.1]; simp
      · obtain ⟨τ0, hj, hrest⟩ := h2; rw [hj]; simp
      · obtain ⟨τ0, hj, hrest⟩ := h3; rw [hj]; simp
    · intro i T2 hget hdone
      rw [htasks] at hget
      obtain ⟨rfl, rfl⟩ := singleton_get hget
      rcases hph with h1 | h2 | h3
      · exfalso
        rcases h1.2.2.2.2.2 with hst | hst <;> rw [hdone] at hst <;> cases hst
      · exfalso
        obtain ⟨τ0, hj, hb, hτ, hlt, hdc, hrg, hpc, hst⟩ := h2
        rw [hdone] at hst; cases hst
      · obtain ⟨τ0, hj, hrest⟩ := h3
        rw [hall, hj]
        simp



theorem runC1_eval : run (init 3 0) trC1 = some sC1 := by
  have e1 : step (init 3 0) Ev.touched = some sTouched := by decide
  have e2 : step sTouched (Ev.tick 1)
      = some ⟨1, 3, true, [⟨.QUEUED, some 0, .inPool, [], [], 0⟩], some 0, 0, 0, false, 0, [0]⟩ := by
    norm_num [step, sTouched]
  have e3 : step (⟨1, 3, true, [⟨.QUEUED, some 0, .inPool, [], [], 0⟩], some 0, 0, 0, false, 0, [0]⟩ : Sys)
      Ev.touched
      = some ⟨1, 3, true, [⟨.QUEUED, some 1, .inPool, [], [], 0⟩], some 0, 0, 0, false, 0, [0, 1]⟩ := by
    decide
  have e4 : step (⟨1, 3, true, [⟨.QUEUED, some 1, .inPool, [], [], 0⟩], some 0, 0, 0, false, 0, [0, 1]⟩ : Sys)
      (Ev.poolStart 0)
      = some ⟨1, 3, true, [⟨.QUEUED, some 1, .loopCheck, [], [], 0⟩], some 0, 0, 0, false, 0, [0, 1]⟩ := by
    decide
  have e5 : step (⟨1, 3, true, [⟨.QUEUED, some 1, .loopCheck, [], [], 0⟩], some 0, 0, 0, false, 0, [0, 1]⟩ : Sys)
      (Ev.loopIter 0)
      = some ⟨1, 3, true, [⟨.SLEEPING, some 1, .sleeping 4, [], [], 0⟩], some 0, 0, 0, false, 0, [0, 1]⟩ := by
    norm_num [step]
  have e6 : step (⟨1, 3, true, [⟨.SLEEPING, some 1, .sleeping 4, [], [], 0⟩], some 0, 0, 0, false, 0, [0, 1]⟩ : Sys)
      (Ev.tick 3)
      = some ⟨4, 3, true, [⟨.SLEEPING, some 1, .sleeping 4, [], [], 0⟩], some 0, 0, 0, false, 0, [0, 1]⟩ := by
    norm_num [step]
  have e7 : step (⟨4, 3, true, [⟨.SLEEPING, some 1, .sleeping 4, [], [], 0⟩], some 0, 0, 0, false, 0, [0, 1]⟩ : Sys)
      (Ev.wake 0)
      = some ⟨4, 3, true, [⟨.SLEEPING, some 1, .loopCheck, [], [], 0⟩], some 0, 0, 0, false, 0, [0, 1]⟩ := by
    norm_num [step]
  have e8 : step (⟨4, 3, true, [⟨.SLEEPING, some 1, .loopCheck, [], [], 0⟩], some 0, 0, 0, false, 0, [0, 1]⟩ : Sys)
      (Ev.loopIter 0)
      = some ⟨4, 3, true, [⟨.ACTIVE, none, .running, [4], [], 0⟩], some 0, 0, 0, false, 0, [0, 1]⟩ := by
    norm_num [step]
  have e9 : step (⟨4, 3, true, [⟨.ACTIVE, none, .running, [4], [], 0⟩], some 0, 0, 0, false, 0, [0, 1]⟩ : Sys)
      (Ev.jobFinish 0 0)
      = some ⟨4, 3, true, [⟨.ACTIVE, none, .postCheck, [4], [0], 0⟩], some 0, 0, 0, false, 0, [0, 1]⟩ := by
    decide
  have e10 : step (⟨4, 3, true, [⟨.ACTIVE, none, .postCheck, [4], [0], 0⟩], some 0, 0, 0, false, 0, [0, 1]⟩ : Sys)
      (Ev.postRunCheck 0) = some sC1 := by
    decide
  simp only [trC1, run, e1, e2, e3, e4, e5, e6, e7, e8, e9, e10, Option.some_bind]

/-- C1 witness: the scenario of spec section 8 - touches at t = 0 and t = 1
with delay 3; the single invocation happens at t = 4, which is at least
1 + 3. -/
theorem C1_witness :
    run (init 3 0) trC1 = some sC1
      ∧ noDeleteB trC1 = true
      ∧ sC1.touches ≠ []
      ∧ withinGapsB 3 sC1.touches = true
      ∧ ((∀ τ ∈ allJobs sC1, lastT sC1.touches + 3 ≤ τ)
          ∧ (allJobs sC1).length ≤ 1
          ∧ (∀ (i : ℕ) (T : OcrTask), sC1.tasks[i]? = some T → T.st = TaskState.DONE →
              (allJobs sC1).length = 1)
          ∧ COALESCING_DELAY none = 3) :=
  ⟨runC1_eval, by decide, by decide, by norm_num [withinGapsB, sC1],
    C1_coalesced_touches_fire_once 3 0 trC1 sC1 runC1_eval (by decide) (by decide)
      (by norm_num [withinGapsB, sC1])⟩

/- ------------------------------------------------------------------ -/
/- C4: deletion before the debounce window elapses.                    -/
/- ------------------------------------------------------------------ -/

theorem Inv1_of_run (d t0 : Time) (tr : List Ev) (s : Sys)
    (hrun : run (init d t0) tr = some s) (hnd : noDeleteB tr = true)
    (hgap : withinGapsB d s.touches = true) : Inv1 d s := by
  have hP := run_induct_on (fun s => withinGapsB d s.touches = true → Inv1 d s)
    (fun e => isDeleted e = false) (Inv1_step d) tr
    (fun e he => by
      have := (List.all_eq_true.mp hnd) e he
      simpa using this)
    (init d t0) s (fun _ => ⟨rfl, Or.inl ⟨rfl, rfl, rfl⟩⟩) hrun
  exact hP hgap

theorem Post4_step : ∀ s e s', Post4 s → isWatchdogEv e = false →
    step s e = some s' → Post4 s' := by
  intro s e s' h hev hstep
  obtain ⟨T, htasks, hjobs, hlt, hidle, hfin⟩ := h
  cases e with
  | touched => cases hev
  | deleted => cases hev
  | tick dd =>
    simp only [step] at hstep
    split at hstep
    case isFalse => cases hstep
    case isTrue =>
      obtain rfl := Option.some.inj hstep
      exact ⟨T, htasks, hjobs, hlt, hidle, hfin⟩
  | poolStart i =>
    simp only [step] at hstep
    split at hstep
    case h_2 => cases hstep
    case h_1 t hget =>
      split at hstep
      case isFalse => cases hstep
      case isTrue hpc =>
        obtain rfl := Option.some.inj hstep
        rw [htasks] at hget
        obtain ⟨rfl, rfl⟩ := singleton_get hget
        refine ⟨{ t with pc := WorkerPc.loopCheck }, by rw [htasks]; rfl,
          hjobs, hlt, by simp, by simp⟩
  | wake i =>
    simp only [step] at hstep
    split at hstep
    case h_2 => cases hstep
    case h_1 t hget =>
      split at hstep
      case h_2 => cases hstep
      case h_1 due hpc =>
        split at hstep
        case isFalse => cases hstep
        case isTrue =>
          obtain rfl := Option.some.inj hstep
          rw [htasks] at hget
          obtain ⟨rfl, rfl⟩ := singleton_get hget
          refine ⟨{ t with pc := WorkerPc.loopCheck }, by rw [htasks]; rfl,
            hjobs, hlt, by simp, by simp⟩
  | loopIter i =>
    simp only [step] at hstep
    split at hstep
    case h_2 => cases hstep
    case h_1 t hget =>
      split at hstep
      case isFalse => cases hstep
      case isTrue hpc =>
        rw [htasks] at hget
        obtain ⟨rfl, rfl⟩ := singleton_get hget
        split at hstep
        case h_2 lt0 hlt0 => rw [hlt] at hlt0; cases hlt0
        case h_1 hlt0 =>
          obtain rfl := Option.some.inj hstep
          refine ⟨⟨TaskState.DONE, t.last_touch, WorkerPc.terminated, t.jobs, t.rcs,
            t.doneCount + 1⟩, ?_, hjobs, hlt, by simp, by simp⟩
          rw [doneT, onTaskDone_tasks, htasks]
          rfl
  | jobFinish i rc =>
    simp only [step] at hstep
    split at hstep
    case h_2 => cases hstep
    case h_1 t hget =>
      split at hstep
      case isFalse => cases hstep
      case isTrue hpc =>
        obtain rfl := Option.some.inj hstep
        rw [htasks] at hget
        obtain ⟨rfl, rfl⟩ := singleton_get hget
        refine ⟨{ t with rcs := t.rcs ++ [rc], pc := WorkerPc.postCheck },
          by rw [htasks]; rfl, hjobs, hlt, by simp, by simp⟩
  | postRunCheck i =>
    simp only [step] at hstep
    split at hstep
    case h_2 => cases hstep
    case h_1 t hget =>
      split at hstep
      case isFalse => cases hstep
      case isTrue hpc =>
        rw [htasks] at hget
        obtain ⟨rfl, rfl⟩ := singleton_get hget
        split at hstep
        case h_1 lt0 hlt0 => rw [hlt] at hlt0; cases hlt0
        case h_2 hlt0 =>
          obtain rfl := Option.some.inj hstep
          refine ⟨⟨TaskState.DONE, t.last_touch, WorkerPc.terminated, t.jobs, t.rcs,
            t.doneCount + 1⟩, ?_, hjobs, hlt, by simp, by simp⟩
          rw [doneT, onTaskDone_tasks, htasks]
          rfl

theorem deleted_phase1_post (s s2 : Sys) (T : OcrTask)
    (htasks : s.tasks = [T]) (hph : phase1 s T)
    (hdel : step s Ev.deleted = some s2) : Post4 s2 := by
  obtain ⟨hjobs, hlt, hdc, hrg, hpend, hst⟩ := hph
  simp only [step] at hdel
  split at hdel
  case isFalse => cases hdel
  case isTrue hw =>
    obtain rfl := Option.some.inj hdel
    unfold cancelSys
    rw [hrg]
    have hget : s.tasks[0]? = some T := by rw [htasks]; rfl
    simp only [hget]
    rcases hst with hst | hst
    · rw [if_pos hst]
      refine ⟨⟨TaskState.DONE, none,
        if T.pc = WorkerPc.inPool then WorkerPc.cancelled else T.pc,
        T.jobs, T.rcs, T.doneCount + 1⟩, ?_, hjobs, rfl, ?_, fun _ => rfl⟩
      · rw [doneT, onTaskDone_tasks, htasks]
        rfl
      · rcases hpend with hp | hp | ⟨u, hp⟩ <;> rw [hp] <;> simp
    · rw [if_neg (by rw [hst]; simp)]
      refine ⟨{ T with last_touch := none }, by rw [htasks]; rfl, hjobs, rfl, ?_, ?_⟩
      · rcases hpend with hp | hp | ⟨u, hp⟩ <;> simp [hp]
      · intro hc
        exfalso
        rcases hpend with hp | hp | ⟨u, hp⟩ <;>
          rcases hc with hc | hc <;> simp [hp] at hc
    
/-- C4: if, after a delete-free run whose touches fall within the coalescing
window, the path receives a `deleted` event strictly before the debounce due
time, then - whatever worker steps follow - the external job is never invoked,
and once the pending worker activity is drained the task is `DONE` with an
empty job log: the cycle ends through cancellation with zero invocations. -/
theorem C4_delete_before_due (d t0 : Time) (tr1 tr2 : List Ev) (s1 s2 s3 : Sys)
    (h1 : run (init d t0) tr1 = some s1)
    (hnd : noDeleteB tr1 = true)
    (hne : s1.touches ≠ [])
    (hgap : withinGapsB d s1.touches = true)
    (hbefore : s1.now < lastT s1.touches + d)
    (hdel : step s1 Ev.deleted = some s2)
    (h2 : run s2 tr2 = some s3)
    (hw2 : workerOnlyB tr2 = true) :
    allJobs s3 = []
      ∧ ∃ T, (drainAll s3).tasks = [T] ∧ T.st = TaskState.DONE ∧ T.jobs = [] := by
  obtain ⟨hdl, hbig⟩ := Inv1_of_run d t0 tr1 s1 h1 hnd hgap
  rcases hbig with ⟨ht, hr, htc⟩ | ⟨T, htasks, hne2, hph⟩
  · exact absurd htc hne
  rcases hph with hph | hph | hph
  case inr.intro.intro.intro.inr.inl =>
    obtain ⟨τ, hj, hb, hτ, hrest⟩ := hph
    exact absurd (lt_of_le_of_lt (hb.trans hτ) hbefore) (lt_irrefl _)
  case inr.intro.intro.intro.inr.inr =>
    obtain ⟨τ, hj, hb, hτ, hrest⟩ := hph
    exact absurd (lt_of_le_of_lt (hb.trans hτ) hbefore) (lt_irrefl _)
  case inr.intro.intro.intro.inl =>
  have hpost : Post4 s2 := deleted_phase1_post s1 s2 T htasks hph hdel
  have hpost3 : Post4 s3 :=
    run_induct_on Post4 (fun e => isWatchdogEv e = false) Post4_step tr2
      (fun e he => by
        have := (List.all_eq_true.mp hw2) e he
        simpa using this)
      s2 s3 hpost h2
  obtain ⟨T3, htasks3, hjobs3, hlt3, hidle3, hfin3⟩ := hpost3
  have hget : s3.tasks[0]? = some T3 := by rw [htasks3]; rfl
  constructor
  · rw [allJobs, htasks3]
    simp [hjobs3]
  · have hlen : s3.tasks.length = 1 := by rw [htasks3]; rfl
    have hdrain : drainAll s3 = drainOne s3 0 := by
      unfold drainAll
      rw [hlen]
      rfl
    rw [hdrain]
    rcases hpc : T3.pc with _ | _ | _ | _ | u | _ | _ | _
    case idle => exact absurd hpc hidle3
    case inPool =>
      refine ⟨⟨TaskState.DONE, T3.last_touch, WorkerPc.terminated, T3.jobs, T3.rcs,
        T3.doneCount + 1⟩, ?_, rfl, hjobs3⟩
      simp only [drainOne, hget, hpc, hlt3]
      rw [doneT, onTaskDone_tasks, htasks3]
      rfl
    case cancelled =>
      have hid : drainOne s3 0 = s3 := by simp only [drainOne, hget, hpc]
      rw [hid]
      exact ⟨T3, htasks3, hfin3 (Or.inl hpc), hjobs3⟩
    case loopCheck =>
      refine ⟨⟨TaskState.DONE, T3.last_touch, WorkerPc.terminated, T3.jobs, T3.rcs,
        T3.doneCount + 1⟩, ?_, rfl, hjobs3⟩
      simp only [drainOne, hget, hpc, hlt3]
      rw [doneT, onTaskDone_tasks, htasks3]
      rfl
    case sleeping =>
      refine ⟨⟨TaskState.DONE, T3.last_touch, WorkerPc.terminated, T3.jobs, T3.rcs,
        T3.doneCount + 1⟩, ?_, rfl, hjobs3⟩
      simp only [drainOne, hget, hpc, hlt3]
      rw [doneT, onTaskDone_tasks, htasks3]
      rfl
    case running =>
      refine ⟨⟨TaskState.DONE, T3.last_touch, WorkerPc.terminated, T3.jobs,
        T3.rcs ++ [0], T3.doneCount + 1⟩, ?_, rfl, hjobs3⟩
      simp only [drainOne, hget, hpc, hlt3]
      rw [doneT, onTaskDone_tasks, htasks3]
      rfl
    case postCheck =>
      refine ⟨⟨TaskState.DONE, T3.last_touch, WorkerPc.terminated, T3.jobs, T3.rcs,
        T3.doneCount + 1⟩, ?_, rfl, hjobs3⟩
      simp only [drainOne, hget, hpc, hlt3]
      rw [doneT, onTaskDone_tasks, htasks3]
      rfl
    case terminated =>
      have hid : drainOne s3 0 = s3 := by simp only [drainOne, hget, hpc]
      rw [hid]
      exact ⟨T3, htasks3, hfin3 (Or.inr hpc), hjobs3⟩

/-- C4 witness: create B at t = 0, delete it at once (before the due time 3):
zero invocations and the drained task is `DONE`. -/
theorem C4_witness :
    run (init 3 0) [Ev.touched] = some sTouched
      ∧ sTouched.now < lastT sTouched.touches + 3
      ∧ step sTouched Ev.deleted = some sC4
      ∧ (allJobs sC4 = []
          ∧ ∃ T, (drainAll sC4).tasks = [T] ∧ T.st = TaskState.DONE ∧ T.jobs = []) :=
  ⟨by decide, by norm_num [lastT, sTouched],
    by decide,
    C4_delete_before_due 3 0 [Ev.touched] [] sTouched sC4 sC4 (by decide) (by decide)
      (by decide) (by decide) (by norm_num [lastT, sTouched]) (by decide) rfl (by decide)⟩

/-- C2 witness: a running job returning exit status 5 on the concrete state
`sC2`. -/
theorem C2_witness :
    ∃ s1, step sC2 (Ev.jobFinish 0 5) = some s1
      ∧ (∃ s0, step sC2 (Ev.jobFinish 0 0) = some s0 ∧ stripRcs s1 = stripRcs s0)
      ∧ s1.tasks[0]? = some { taskC2 with rcs := taskC2.rcs ++ [5], pc := WorkerPc.postCheck }
      ∧ (∀ j, j ≠ 0 → s1.tasks[j]? = sC2.tasks[j]?)
      ∧ (taskC2.last_touch = none →
          ∃ s2, step s1 (Ev.postRunCheck 0) = some s2
            ∧ ∃ T2, s2.tasks[0]? = some T2
                ∧ T2.st = TaskState.DONE
                ∧ T2.doneCount = taskC2.doneCount + 1
                ∧ T2.jobs = taskC2.jobs) :=
  C2_nonzero_exit_logged_only sC2 0 taskC2 5 rfl rfl (by decide)

/-- C5 witness: `taskC5` just finished its call with a touch at time 1 pending;
the post-run check re-enqueues and the chained run performs exactly one more
invocation before `DONE`. -/
theorem C5_witness :
    (step sC5 (Ev.postRunCheck 0)
        = some { sC5 with
                 tasks := sC5.tasks.set 0
                   ({ taskC5 with st := TaskState.QUEUED, pc := WorkerPc.inPool }) })
      ∧ ∃ s2, run sC5 [Ev.postRunCheck 0, Ev.poolStart 0,
              Ev.tick (max 0 (1 + sC5.delay - sC5.now)), Ev.loopIter 0,
              Ev.jobFinish 0 0, Ev.postRunCheck 0] = some s2
          ∧ ∃ T2, s2.tasks[0]? = some T2
              ∧ T2.jobs = taskC5.jobs ++ [max sC5.now (1 + sC5.delay)]
              ∧ T2.st = TaskState.DONE
              ∧ T2.doneCount = taskC5.doneCount + 1
              ∧ T2.rcs = taskC5.rcs ++ [(0 : Int)] :=
  C5_touch_during_run_chains sC5 0 taskC5 1 rfl rfl rfl rfl

/-- C7 witness: the invariant and the enqueue effect at the concrete state
reached by one `touched` event. -/
theorem C7_witness :
    sTouched.assertFail = false
      ∧ (∀ (i : ℕ) (T : OcrTask), sTouched.tasks[i]? = some T →
          (T.pc = WorkerPc.running ∨ T.pc = WorkerPc.postCheck) → T.st = TaskState.ACTIVE)
      ∧ (∀ t : OcrTask, t.st = TaskState.NEW ∨ t.st = TaskState.ACTIVE →
          enqueueT t = ({ t with st := TaskState.QUEUED, pc := WorkerPc.inPool }, true)) :=
  C7_enqueue_assert_safe 3 0 [Ev.touched] sTouched (by decide)

/- ------------------------------------------------------------------ -/
/- C6: registry invariant machinery.                                   -/
/- ------------------------------------------------------------------ -/

theorem getElem?_set_cases {l : List OcrTask} {i j : ℕ} {a T : OcrTask}
    (h : (l.set i a)[j]? = some T) : (i = j ∧ T = a) ∨ (i ≠ j ∧ l[j]? = some T) := by
  by_cases hij : i = j
  · subst hij
    rw [List.getElem?_set_self'] at h
    rcases hl : l[i]? with _ | u
    · rw [hl] at h; simp at h
    · rw [hl] at h
      simp only [Option.map_eq_map, Option.map_some, Option.some.injEq] at h
      exact Or.inl ⟨rfl, h.symm⟩
  · rw [List.getElem?_set_ne hij] at h
    exact Or.inr ⟨hij, h⟩

theorem getElem?_append_cases {l : List OcrTask} {j : ℕ} {a T : OcrTask}
    (h : (l ++ [a])[j]? = some T) :
    (j = l.length ∧ T = a) ∨ (j < l.length ∧ l[j]? = some T) := by
  rcases lt_or_ge j l.length with hlen | hlen
  · rw [List.getElem?_append_left hlen] at h
    exact Or.inr ⟨hlen, h⟩
  · rcases Nat.eq_or_lt_of_le hlen with heq | hlt
    · rw [← heq] at h
      rw [List.getElem?_concat_length] at h
      exact Or.inl ⟨heq.symm, (Option.some.inj h).symm⟩
    · rw [List.getElem?_eq_none (by simpa using hlt)] at h
      cases h

theorem run_induct_safe (P : Sys → Prop)
    (hstep : ∀ s e s', P s → (e = Ev.deleted → okDelete s = true) →
      step s e = some s' → P s') :
    ∀ tr s s', P s → traceSafeB s tr = true → run s tr = some s' → P s' := by
  intro tr
  induction tr with
  | nil =>
    intro s s' h _ hr
    simp only [run, Option.some.injEq] at hr
    exact hr ▸ h
  | cons e tr ih =>
    intro s s' h hsafe hr
    simp only [run] at hr
    rcases Option.bind_eq_some.mp hr with ⟨s1, h1, h2⟩
    simp only [traceSafeB, Bool.and_eq_true] at hsafe
    obtain ⟨hguard, hrest⟩ := hsafe
    rw [h1] at hrest
    refine ih s1 s' (hstep s e s1 h ?_ h1) hrest h2
    intro he
    rw [if_pos he] at hguard
    exact hguard

theorem Inv6_step : ∀ s e s', Inv6 s → (e = Ev.deleted → okDelete s = true) →
    step s e = some s' → Inv6 s' := by
  intro s e s' h hg hstep
  obtain ⟨hA, hB, hC, hD, hE⟩ := h
  cases e with
  | touched =>
    simp only [step] at hstep
    split at hstep
    case isFalse => cases hstep
    case isTrue hw =>
      split at hstep
      case h_1 i hreg0 =>
        split at hstep
        case h_1 => cases hstep
        case h_2 t hget0 =>
          obtain rfl := Option.some.inj hstep
          have hreg : s.reg = some i := hreg0
          have hget : s.tasks[i]? = some t := hget0
          obtain ⟨T0, hgetT, hstT, hdcT⟩ := hA i hreg
          have hTt : T0 = t := by rw [hget] at hgetT; exact (Option.some.inj hgetT).symm
          rw [hTt] at hstT hdcT
          refine ⟨?_, ?_, hC, ?_, ?_⟩
          · intro i' h'
            have h2 : s.reg = some i' := h'
            have : i' = i := by rw [hreg] at h2; exact (Option.some.inj h2).symm
            subst this
            refine ⟨(touchT s.now t).1, getElem?_set_self _ _ _ _ hget, ?_, ?_⟩
            · rcases touchT_fst s.now t with he | he <;> rw [he]
              · exact hstT
              · simp
            · rcases touchT_fst s.now t with he | he <;> rw [he] <;> exact hdcT
          · intro j T' hget' hreg'
            rcases getElem?_set_cases hget' with ⟨rfl, rfl⟩ | ⟨hij, hold⟩
            · exact absurd hreg hreg'
            · exact hB j T' hold hreg'
          · simpa [List.length_set] using hD
          · intro j T' hget' hpc'
            rcases getElem?_set_cases hget' with ⟨rfl, rfl⟩ | ⟨hij, hold⟩
            · rcases touchT_fst s.now t with he | he
              · rw [he] at hpc' ⊢
                exact hE i t hget hpc'
              · rw [he] at hpc'
                simp at hpc'
            · exact hE j T' hold hpc'
      case h_2 hreg0 =>
        obtain rfl := Option.some.inj hstep
        have hreg : s.reg = none := hreg0
        refine ⟨?_, ?_, hC, ?_, ?_⟩
        · intro i' h'
          have h2 : some s.tasks.length = some i' := h'
          have : i' = s.tasks.length := (Option.some.inj h2).symm
          subst this
          refine ⟨(touchT s.now initTask).1, List.getElem?_concat_length _ _, ?_, ?_⟩
          · simp [touchT, initTask, enqueueT]
          · simp [touchT, initTask, enqueueT]
        · intro j T' hget' hreg'
          rcases getElem?_append_cases hget' with ⟨rfl, rfl⟩ | ⟨hlt2, hold⟩
          · exact absurd rfl hreg'
          · exact hB j T' hold (by rw [hreg]; simp)
        · have hD' := hD
          rw [hreg] at hD'
          simp only [Option.isSome_none, Bool.false_eq_true, if_false, add_zero] at hD'
          simp [List.length_append, hD']
        · intro j T' hget' hpc'
          rcases getElem?_append_cases hget' with ⟨rfl, rfl⟩ | ⟨hlt2, hold⟩
          · simp [touchT, initTask, enqueueT] at hpc'
          · exact hE j T' hold hpc'
  | deleted =>
    have hok : okDelete s = true := hg rfl
    simp only [step] at hstep
    split at hstep
    case isFalse => cases hstep
    case isTrue hw =>
      obtain rfl := Option.some.inj hstep
      unfold cancelSys
      rcases hreg : s.reg with _ | i
      · simp only [hreg]
        exact ⟨hA, hB, hC, hD, hE⟩
      · simp only [hreg]
        rcases hget : s.tasks[i]? with _ | t
        · simp only [hget]
          exact ⟨hA, hB, hC, hD, hE⟩
        · simp only [hget]
          obtain ⟨T0, hgetT, hstT, hdcT⟩ := hA i hreg
          have hTt : T0 = t := by rw [hget] at hgetT; exact (Option.some.inj hgetT).symm
          rw [hTt] at hstT hdcT
          by_cases hq : t.st = TaskState.QUEUED
          · have hpc : t.pc = WorkerPc.inPool := by
              unfold okDelete at hok
              rw [hreg] at hok
              simp only [hget, hq] at hok
              simpa using hok
            rw [if_pos hq]
            have hfinal : doneT s i
                ⟨t.st, none, if t.pc = WorkerPc.inPool then WorkerPc.cancelled else t.pc,
                 t.jobs, t.rcs, t.doneCount⟩
                = { s with
                    tasks := s.tasks.set i ⟨TaskState.DONE, none, WorkerPc.cancelled,
                      t.jobs, t.rcs, t.doneCount + 1⟩,
                    reg := none, regRemovals := s.regRemovals + 1 } := by
              rw [doneT, onTaskDone_of_reg_some (by exact hreg)]
              simp [hpc]
            rw [hfinal]
            refine ⟨?_, ?_, hC, ?_, ?_⟩
            · intro i' h'
              have h2 : (none : Option ℕ) = some i' := h'
              cases h2
            · intro j T' hget' _
              rcases getElem?_set_cases hget' with ⟨rfl, rfl⟩ | ⟨hij, hold⟩
              · exact ⟨rfl, by rw [hdcT], Or.inl rfl⟩
              · exact hB j T' hold
                  (by rw [hreg]; intro hc; exact hij (Option.some.inj hc))
            · have hD' := hD
              rw [hreg] at hD'
              simp only [Option.isSome_some, if_true] at hD'
              simp only [List.length_set, Option.isSome_none, Bool.false_eq_true,
                if_false, add_zero]
              omega
            · intro j T' hget' hpc'
              rcases getElem?_set_cases hget' with ⟨rfl, rfl⟩ | ⟨hij, hold⟩
              · simp at hpc'
              · exact hE j T' hold hpc'
          · rw [if_neg hq]
            refine ⟨?_, ?_, hC, ?_, ?_⟩
            · intro i' h'
              have h2 : (some i : Option ℕ) = some i' := h'
              have : i' = i := (Option.some.inj h2).symm
              subst this
              exact ⟨{ t with last_touch := none }, getElem?_set_self _ _ _ _ hget,
                hstT, hdcT⟩
            · intro j T' hget' hreg'
              rcases getElem?_set_cases hget' with ⟨rfl, rfl⟩ | ⟨hij, hold⟩
              · exact absurd rfl hreg'
              · refine hB j T' hold ?_
                rw [hreg]
                exact hreg'
            · have hD' := hD
              rw [hreg] at hD'
              simpa [List.length_set] using hD'
            · intro j T' hget' hpc'
              rcases getElem?_set_cases hget' with ⟨rfl, rfl⟩ | ⟨hij, hold⟩
              · exact hE i t hget hpc'
              · exact hE j T' hold hpc'
  | tick dd =>
    simp only [step] at hstep
    split at hstep
    case isFalse => cases hstep
    case isTrue =>
      obtain rfl := Option.some.inj hstep
      exact ⟨hA, hB, hC, hD, hE⟩
  | poolStart i =>
    simp only [step] at hstep
    split at hstep
    case h_2 => cases hstep
    case h_1 t hget =>
      split at hstep
      case isFalse => cases hstep
      case isTrue hpc =>
        obtain rfl := Option.some.inj hstep
        have hregi : s.reg = some i := by
          by_contra hn
          rcases (hB i t hget hn).2.2 with hc | hc <;> rw [hc] at hpc <;> cases hpc
        obtain ⟨T0, hgetT, hstT, hdcT⟩ := hA i hregi
        have hTt : T0 = t := by rw [hget] at hgetT; exact (Option.some.inj hgetT).symm
        rw [hTt] at hstT hdcT
        refine ⟨?_, ?_, hC, ?_, ?_⟩
        · intro i' h'
          have h2 : s.reg = some i' := h'
          have : i' = i := by rw [hregi] at h2; exact (Option.some.inj h2).symm
          subst this
          exact ⟨{ t with pc := WorkerPc.loopCheck }, getElem?_set_self _ _ _ _ hget,
            hstT, hdcT⟩
        · intro j T' hget' hreg'
          rcases getElem?_set_cases hget' with ⟨rfl, rfl⟩ | ⟨hij, hold⟩
          · exact absurd hregi hreg'
          · exact hB j T' hold hreg'
        · simpa [List.length_set] using hD
        · intro j T' hget' hpc'
          rcases getElem?_set_cases hget' with ⟨rfl, rfl⟩ | ⟨hij, hold⟩
          · simp at hpc'
          · exact hE j T' hold hpc'
  | wake i =>
    simp only [step] at hstep
    split at hstep
    case h_2 => cases hstep
    case h_1 t hget =>
      split at hstep
      case h_2 => cases hstep
      case h_1 due hpc =>
        split at hstep
        case isFalse => cases hstep
        case isTrue =>
          obtain rfl := Option.some.inj hstep
          have hregi : s.reg = some i := by
            by_contra hn
            rcases (hB i t hget hn).2.2 with hc | hc <;> rw [hc] at hpc <;> cases hpc
          obtain ⟨T0, hgetT, hstT, hdcT⟩ := hA i hregi
          have hTt : T0 = t := by rw [hget] at hgetT; exact (Option.some.inj hgetT).symm
          rw [hTt] at hstT hdcT
          refine ⟨?_, ?_, hC, ?_, ?_⟩
          · intro i' h'
            have h2 : s.reg = some i' := h'
            have : i' = i := by rw [hregi] at h2; exact (Option.some.inj h2).symm
            subst this
            exact ⟨{ t with pc := WorkerPc.loopCheck }, getElem?_set_self _ _ _ _ hget,
              hstT, hdcT⟩
          · intro j T' hget' hreg'
            rcases getElem?_set_cases hget' with ⟨rfl, rfl⟩ | ⟨hij, hold⟩
            · exact absurd hregi hreg'
            · exact hB j T' hold hreg'
          · simpa [List.length_set] using hD
          · intro j T' hget' hpc'
            rcases getElem?_set_cases hget' with ⟨rfl, rfl⟩ | ⟨hij, hold⟩
            · simp at hpc'
            · exact hE j T' hold hpc'
  | loopIter i =>
    simp only [step] at hstep
    split at hstep
    case h_2 => cases hstep
    case h_1 t hget =>
      split at hstep
      case isFalse => cases hstep
      case isTrue hpc =>
        have hregi : s.reg = some i := by
          by_contra hn
          rcases (hB i t hget hn).2.2 with hc | hc <;> rw [hc] at hpc <;> cases hpc
        obtain ⟨T0, hgetT, hstT, hdcT⟩ := hA i hregi
        have hTt : T0 = t := by rw [hget] at hgetT; exact (Option.some.inj hgetT).symm
        rw [hTt] at hstT hdcT
        split at hstep
        case h_1 hlt =>
          obtain rfl := Option.some.inj hstep
          have hfinal : doneT s i { t with pc := WorkerPc.terminated }
              = { s with
                  tasks := s.tasks.set i ⟨TaskState.DONE, t.last_touch,
                    WorkerPc.terminated, t.jobs, t.rcs, t.doneCount + 1⟩,
                  reg := none, regRemovals := s.regRemovals + 1 } := by
            rw [doneT, onTaskDone_of_reg_some (by exact hregi)]
          rw [hfinal]
          refine ⟨?_, ?_, hC, ?_, ?_⟩
          · intro i' h'
            have h2 : (none : Option ℕ) = some i' := h'
            cases h2
          · intro j T' hget' _
            rcases getElem?_set_cases hget' with ⟨rfl, rfl⟩ | ⟨hij, hold⟩
            · exact ⟨rfl, by rw [hdcT], Or.inr rfl⟩
            · exact hB j T' hold
                (by rw [hregi]; intro hc; exact hij (Option.some.inj hc))
          · have hD' := hD
            rw [hregi] at hD'
            simp only [Option.isSome_some, if_true] at hD'
            simp [List.length_set]
            omega
          · intro j T' hget' hpc'
            rcases getElem?_set_cases hget' with ⟨rfl, rfl⟩ | ⟨hij, hold⟩
            · simp at hpc'
            · exact hE j T' hold hpc'
        case h_2 lt0 hlt =>
          split at hstep
          case isTrue hdue =>
            obtain rfl := Option.some.inj hstep
            refine ⟨?_, ?_, hC, ?_, ?_⟩
            · intro i' h'
              have h2 : s.reg = some i' := h'
              have : i' = i := by rw [hregi] at h2; exact (Option.some.inj h2).symm
              subst this
              exact ⟨_, getElem?_set_self _ _ _ _ hget, by simp, hdcT⟩
            · intro j T' hget' hreg'
              rcases getElem?_set_cases hget' with ⟨rfl, rfl⟩ | ⟨hij, hold⟩
              · exact absurd hregi hreg'
              · exact hB j T' hold hreg'
            · simpa [List.length_set] using hD
            · intro j T' hget' hpc'
              rcases getElem?_set_cases hget' with ⟨rfl, rfl⟩ | ⟨hij, hold⟩
              · rfl
              · exact hE j T' hold hpc'
          case isFalse hdue =>
            obtain rfl := Option.some.inj hstep
            refine ⟨?_, ?_, hC, ?_, ?_⟩
            · intro i' h'
              have h2 : s.reg = some i' := h'
              have : i' = i := by rw [hregi] at h2; exact (Option.some.inj h2).symm
              subst this
              exact ⟨_, getElem?_set_self _ _ _ _ hget, by simp, hdcT⟩
            · intro j T' hget' hreg'
              rcases getElem?_set_cases hget' with ⟨rfl, rfl⟩ | ⟨hij, hold⟩
              · exact absurd hregi hreg'
              · exact hB j T' hold hreg'
            · simpa [List.length_set] using hD
            · intro j T' hget' hpc'
              rcases getElem?_set_cases hget' with ⟨rfl, rfl⟩ | ⟨hij, hold⟩
              · simp at hpc'
              · exact hE j T' hold hpc'
  | jobFinish i rc =>
    simp only [step] at hstep
    split at hstep
    case h_2 => cases hstep
    case h_1 t hget =>
      split at hstep
      case isFalse => cases hstep
      case isTrue hpc =>
        obtain rfl := Option.some.inj hstep
        have hregi : s.reg = some i := by
          by_contra hn
          rcases (hB i t hget hn).2.2 with hc | hc <;> rw [hc] at hpc <;> cases hpc
        obtain ⟨T0, hgetT, hstT, hdcT⟩ := hA i hregi
        have hTt : T0 = t := by rw [hget] at hgetT; exact (Option.some.inj hgetT).symm
        rw [hTt] at hstT hdcT
        refine ⟨?_, ?_, hC, ?_, ?_⟩
        · intro i' h'
          have h2 : s.reg = some i' := h'
          have : i' = i := by rw [hregi] at h2; exact (Option.some.inj h2).symm
          subst this
          exact ⟨_, getElem?_set_self _ _ _ _ hget, hstT, hdcT⟩
        · intro j T' hget' hreg'
          rcases getElem?_set_cases hget' with ⟨rfl, rfl⟩ | ⟨hij, hold⟩
          · exact absurd hregi hreg'
          · exact hB j T' hold hreg'
        · simpa [List.length_set] using hD
        · intro j T' hget' hpc'
          rcases getElem?_set_cases hget' with ⟨rfl, rfl⟩ | ⟨hij, hold⟩
          · exact hE i t hget (Or.inl hpc)
          · exact hE j T' hold hpc'
  | postRunCheck i =>
    simp only [step] at hstep
    split at hstep
    case h_2 => cases hstep
    case h_1 t hget =>
      split at hstep
      case isFalse => cases hstep
      case isTrue hpc =>
        have hregi : s.reg = some i := by
          by_contra hn
          rcases (hB i t hget hn).2.2 with hc | hc <;> rw [hc] at hpc <;> cases hpc
        obtain ⟨T0, hgetT, hstT, hdcT⟩ := hA i hregi
        have hTt : T0 = t := by rw [hget] at hgetT; exact (Option.some.inj hgetT).symm
        rw [hTt] at hstT hdcT
        have hact : t.st = TaskState.ACTIVE := hE i t hget (Or.inr hpc)
        split at hstep
        case h_1 lt0 hlt =>
          have hok : enqueueT t
              = (⟨TaskState.QUEUED, t.last_touch, WorkerPc.inPool, t.jobs, t.rcs,
                  t.doneCount⟩, true) := by
            unfold enqueueT
            rw [if_pos (Or.inr hact)]
          have ht1 : (if (enqueueT t).2 then (enqueueT t).1
              else { t with pc := WorkerPc.terminated })
              = ⟨TaskState.QUEUED, t.last_touch, WorkerPc.inPool, t.jobs, t.rcs,
                 t.doneCount⟩ := by
            rw [hok]
            exact if_pos rfl
          rw [ht1] at hstep
          obtain rfl := Option.some.inj hstep
          refine ⟨?_, ?_, hC, ?_, ?_⟩
          · intro i' h'
            have h2 : s.reg = some i' := h'
            have : i' = i := by rw [hregi] at h2; exact (Option.some.inj h2).symm
            subst this
            exact ⟨_, getElem?_set_self _ _ _ _ hget, by simp, hdcT⟩
          · intro j T' hget' hreg'
            rcases getElem?_set_cases hget' with ⟨rfl, rfl⟩ | ⟨hij, hold⟩
            · exact absurd hregi hreg'
            · exact hB j T' hold hreg'
          · simpa [List.length_set] using hD
          · intro j T' hget' hpc'
            rcases getElem?_set_cases hget' with ⟨rfl, rfl⟩ | ⟨hij, hold⟩
            · simp at hpc'
            · exact hE j T' hold hpc'
        case h_2 hlt =>
          obtain rfl := Option.some.inj hstep
          have hfinal : doneT s i { t with pc := WorkerPc.terminated }
              = { s with
                  tasks := s.tasks.set i ⟨TaskState.DONE, t.last_touch,
                    WorkerPc.terminated, t.jobs, t.rcs, t.doneCount + 1⟩,
                  reg := none, regRemovals := s.regRemovals + 1 } := by
            rw [doneT, onTaskDone_of_reg_some (by exact hregi)]
          rw [hfinal]
          refine ⟨?_, ?_, hC, ?_, ?_⟩
          · intro i' h'
            have h2 : (none : Option ℕ) = some i' := h'
            cases h2
          · intro j T' hget' _
            rcases getElem?_set_cases hget' with ⟨rfl, rfl⟩ | ⟨hij, hold⟩
            · exact ⟨rfl, by rw [hdcT], Or.inr rfl⟩
            · exact hB j T' hold
                (by rw [hregi]; intro hc; exact hij (Option.some.inj hc))
          · have hD' := hD
            rw [hregi] at hD'
            simp only [Option.isSome_some, if_true] at hD'
            simp [List.length_set]
            omega
          · intro j T' hget' hpc'
            rcases getElem?_set_cases hget' with ⟨rfl, rfl⟩ | ⟨hij, hold⟩
            · simp at hpc'
            · exact hE j T' hold hpc'

/-- C6 counterexample: touch; the pool starts the job while the task is still
`QUEUED`; a `deleted` event cancels it (pool cancellation fails, `done()` runs
anyway and empties the registry); a second touch registers a fresh task; the
stale first worker then calls `done()` a second time, whose
`del current_tasks[path]` removes the FRESH task's registry entry.  Final
state: the registry is empty while the second task is still `QUEUED` and never
reported `DONE` (`doneCount = 0`), and the first task reported `DONE` twice -
refuting "a path leaves the mapping exactly once, when its Task reports
DONE". -/
theorem C6_counterexample :
    (run (init 3 0) [Ev.touched, Ev.poolStart 0, Ev.deleted, Ev.touched,
        Ev.loopIter 0]).map
        (fun s => (s.reg, s.tasks.map (fun t => (t.st, t.doneCount)), s.regRemovals))
      = some (none, [(TaskState.DONE, 2), (TaskState.QUEUED, 0)], 2) := by decide

/-- C6 amended: provided no `deleted` event ever hits a task that is `QUEUED`
but already started (the pool-cancellation race of spec section 7), the
registry discipline holds along every run: no `KeyError` is ever raised; the
number of successful removals accounts exactly for every task object ever
created except the currently registered one; a task observed `DONE` is no
longer registered and fired its completion callback exactly once; conversely
every deregistered task is `DONE` with exactly one callback; and a touch of an
unregistered path appends a fresh task - constructed in state `NEW` with no
recorded touch and immediately self-enqueued to `QUEUED` - and registers it. -/
theorem C6_registry_invariant (d t0 : Time) (tr : List Ev) (s : Sys)
    (hrun : run (init d t0) tr = some s)
    (hsafe : traceSafeB (init d t0) tr = true) :
    s.keyErr = 0
      ∧ s.regRemovals + (if s.reg.isSome then 1 else 0) = s.tasks.length
      ∧ (∀ (i : ℕ) (T : OcrTask), s.tasks[i]? = some T → T.st = TaskState.DONE →
          s.reg ≠ some i ∧ T.doneCount = 1)
      ∧ (∀ (i : ℕ) (T : OcrTask), s.tasks[i]? = some T → s.reg ≠ some i →
          T.st = TaskState.DONE ∧ T.doneCount = 1)
      ∧ (s.reg = none → s.watching = true →
          ∃ s', step s Ev.touched = some s'
            ∧ s'.tasks = s.tasks ++ [(touchT s.now initTask).1]
            ∧ initTask.st = TaskState.NEW
            ∧ (touchT s.now initTask).1
                = ⟨TaskState.QUEUED, some s.now, WorkerPc.inPool, [], [], 0⟩
            ∧ s'.reg = some s.tasks.length) := by
  have hinv : Inv6 s := by
    refine run_induct_safe Inv6 Inv6_step tr (init d t0) s ?_ hsafe hrun
    refine ⟨?_, ?_, rfl, rfl, ?_⟩
    · intro i h
      cases h
    · intro j T hj
      simp [init] at hj
    · intro j T hj
      simp [init] at hj
  obtain ⟨hA, hB, hC, hD, hE⟩ := hinv
  refine ⟨hC, hD, ?_, fun i T hg hr => ⟨(hB i T hg hr).1, (hB i T hg hr).2.1⟩, ?_⟩
  · intro i T hget hdone
    have hni : s.reg ≠ some i := by
      intro hc
      obtain ⟨T2, hget2, hst2, _⟩ := hA i hc
      rw [hget] at hget2
      exact hst2 (by rw [← Option.some.inj hget2]; exact hdone)
    exact ⟨hni, (hB i T hget hni).2.1⟩
  · intro hreg hw
    have hstep2 : step s Ev.touched
        = some { s with
                 tasks := s.tasks ++ [(touchT s.now initTask).1],
                 reg := some s.tasks.length,
                 touches := s.touches ++ [s.now],
                 assertFail := s.assertFail || !(touchT s.now initTask).2 } := by
      simp only [step, hw, if_true, hreg]
    exact ⟨_, hstep2, rfl, rfl, by simp [touchT, initTask, enqueueT], rfl⟩

/-- C6 witness: the amended registry invariant at the concrete race-free trace
consisting of one `touched` event. -/
theorem C6_witness :
    sTouched.keyErr = 0
      ∧ sTouched.regRemovals + (if sTouched.reg.isSome then 1 else 0)
          = sTouched.tasks.length
      ∧ (∀ (i : ℕ) (T : OcrTask), sTouched.tasks[i]? = some T →
          T.st = TaskState.DONE → sTouched.reg ≠ some i ∧ T.doneCount = 1)
      ∧ (∀ (i : ℕ) (T : OcrTask), sTouched.tasks[i]? = some T →
          sTouched.reg ≠ some i → T.st = TaskState.DONE ∧ T.doneCount = 1)
      ∧ (sTouched.reg = none → sTouched.watching = true →
          ∃ s', step sTouched Ev.touched = some s'
            ∧ s'.tasks = sTouched.tasks ++ [(touchT sTouched.now initTask).1]
            ∧ initTask.st = TaskState.NEW
            ∧ (touchT sTouched.now initTask).1
                = ⟨TaskState.QUEUED, some sTouched.now, WorkerPc.inPool, [], [], 0⟩
            ∧ s'.reg = some sTouched.tasks.length) :=
  C6_registry_invariant 3 0 [Ev.touched] sTouched (by decide) (by decide)

/- ------------------------------------------------------------------ -/
/- C9: shutdown.                                                       -/
/- ------------------------------------------------------------------ -/

theorem drainOne_get_self (s : Sys) (i : ℕ) (t : OcrTask) (hget : s.tasks[i]? = some t) :
    (drainOne s i).tasks[i]? = some (drainTask s.now s.delay t) := by
  unfold drainOne drainTask
  rw [hget]
  rcases hpc : t.pc with _ | _ | _ | _ | u | _ | _ | _ <;> simp only [hpc]
  case idle => exact hget
  case cancelled => exact hget
  case terminated => exact hget
  case running =>
    rcases hlt : t.last_touch with _ | lt0 <;> simp only [hlt]
    · rw [doneT, onTaskDone_tasks]
      exact getElem?_set_self _ _ _ _ hget
    · exact getElem?_set_self _ _ _ _ hget
  case postCheck =>
    rcases hlt : t.last_touch with _ | lt0 <;> simp only [hlt]
    · rw [doneT, onTaskDone_tasks]
      exact getElem?_set_self _ _ _ _ hget
    · exact getElem?_set_self _ _ _ _ hget
  case inPool =>
    rcases hlt : t.last_touch with _ | lt0 <;> simp only [hlt]
    · rw [doneT, onTaskDone_tasks]
      exact getElem?_set_self _ _ _ _ hget
    · rw [doneT, onTaskDone_tasks]
      exact getElem?_set_self _ _ _ _ hget
  case loopCheck =>
    rcases hlt : t.last_touch with _ | lt0 <;> simp only [hlt]
    · rw [doneT, onTaskDone_tasks]
      exact getElem?_set_self _ _ _ _ hget
    · rw [doneT, onTaskDone_tasks]
      exact getElem?_set_self _ _ _ _ hget
  case sleeping =>
    rcases hlt : t.last_touch with _ | lt0 <;> simp only [hlt]
    · rw [doneT, onTaskDone_tasks]
      exact getElem?_set_self _ _ _ _ hget
    · rw [doneT, onTaskDone_tasks]
      exact getElem?_set_self _ _ _ _ hget

theorem drainOne_tasks_shape (s : Sys) (i : ℕ) :
    (drainOne s i).tasks = s.tasks ∨ ∃ a, (drainOne s i).tasks = s.tasks.set i a := by
  unfold drainOne
  rcases hget : s.tasks[i]? with _ | t
  · exact Or.inl rfl
  · dsimp only
    rcases hpc : t.pc with _ | _ | _ | _ | u | _ | _ | _
    case idle => exact Or.inl rfl
    case cancelled => exact Or.inl rfl
    case terminated => exact Or.inl rfl
    case running =>
      rcases hlt : t.last_touch with _ | lt0
      · exact Or.inr ⟨_, by simp only [doneT, onTaskDone_tasks]; rfl⟩
      · exact Or.inr ⟨_, rfl⟩
    case postCheck =>
      rcases hlt : t.last_touch with _ | lt0
      · exact Or.inr ⟨_, by simp only [doneT, onTaskDone_tasks]; rfl⟩
      · exact Or.inr ⟨_, rfl⟩
    case inPool =>
      rcases hlt : t.last_touch with _ | lt0 <;>
        exact Or.inr ⟨_, by simp only [doneT, onTaskDone_tasks]; rfl⟩
    case loopCheck =>
      rcases hlt : t.last_touch with _ | lt0 <;>
        exact Or.inr ⟨_, by simp only [doneT, onTaskDone_tasks]; rfl⟩
    case sleeping =>
      rcases hlt : t.last_touch with _ | lt0 <;>
        exact Or.inr ⟨_, by simp only [doneT, onTaskDone_tasks]; rfl⟩

theorem drainOne_get_ne (s : Sys) (i j : ℕ) (hij : i ≠ j) :
    (drainOne s i).tasks[j]? = s.tasks[j]? := by
  rcases drainOne_tasks_shape s i with h | ⟨a, h⟩
  · rw [h]
  · rw [h, List.getElem?_set_ne hij]

theorem drainOne_scalars (s : Sys) (i : ℕ) :
    (drainOne s i).now = s.now ∧ (drainOne s i).delay = s.delay
      ∧ (drainOne s i).watching = s.watching := by
  unfold drainOne
  rcases hget : s.tasks[i]? with _ | t
  · exact ⟨rfl, rfl, rfl⟩
  · dsimp only
    rcases hpc : t.pc with _ | _ | _ | _ | u | _ | _ | _
    case idle => exact ⟨rfl, rfl, rfl⟩
    case cancelled => exact ⟨rfl, rfl, rfl⟩
    case terminated => exact ⟨rfl, rfl, rfl⟩
    case running =>
      rcases hlt : t.last_touch with _ | lt0
      · simp only [doneT]
        unfold onTaskDone
        split <;> exact ⟨rfl, rfl, rfl⟩
      · exact ⟨rfl, rfl, rfl⟩
    case postCheck =>
      rcases hlt : t.last_touch with _ | lt0
      · simp only [doneT]
        unfold onTaskDone
        split <;> exact ⟨rfl, rfl, rfl⟩
      · exact ⟨rfl, rfl, rfl⟩
    case inPool =>
      rcases hlt : t.last_touch with _ | lt0 <;>
        (simp only [doneT]; unfold onTaskDone; split <;> exact ⟨rfl, rfl, rfl⟩)
    case loopCheck =>
      rcases hlt : t.last_touch with _ | lt0 <;>
        (simp only [doneT]; unfold onTaskDone; split <;> exact ⟨rfl, rfl, rfl⟩)
    case sleeping =>
      rcases hlt : t.last_touch with _ | lt0 <;>
        (simp only [doneT]; unfold onTaskDone; split <;> exact ⟨rfl, rfl, rfl⟩)

theorem drainTask_idem (n d : Time) (t : OcrTask) :
    drainTask n d (drainTask n d t) = drainTask n d t := by
  unfold drainTask
  rcases hpc : t.pc with _ | _ | _ | _ | u | _ | _ | _ <;> simp only [hpc] <;>
    try rfl
  case running => rcases hlt : t.last_touch with _ | lt0 <;> simp [hlt]
  case postCheck => rcases hlt : t.last_touch with _ | lt0 <;> simp [hlt]
  case inPool => rcases hlt : t.last_touch with _ | lt0 <;> simp [hlt]
  case loopCheck => rcases hlt : t.last_touch with _ | lt0 <;> simp [hlt]
  case sleeping => rcases hlt : t.last_touch with _ | lt0 <;> simp [hlt]

theorem foldl_drain_get (L : List ℕ) :
    ∀ (s : Sys) (i : ℕ) (t : OcrTask), s.tasks[i]? = some t →
      (L.foldl drainOne s).tasks[i]?
        = some (if i ∈ L then drainTask s.now s.delay t else t) := by
  induction L with
  | nil => intro s i t h; simpa using h
  | cons j L ih =>
    intro s i t h
    rw [List.foldl_cons]
    obtain ⟨hnow, hdelay, _⟩ := drainOne_scalars s j
    by_cases hij : j = i
    · subst hij
      have h1 : (drainOne s j).tasks[j]? = some (drainTask s.now s.delay t) :=
        drainOne_get_self s j t h
      rw [ih (drainOne s j) j (drainTask s.now s.delay t) h1, hnow, hdelay]
      by_cases hmem : j ∈ L
      · simp [hmem, drainTask_idem]
      · simp [hmem]
    · have h1 : (drainOne s j).tasks[i]? = some t := by
        rw [drainOne_get_ne s j i hij]; exact h
      rw [ih (drainOne s j) i t h1, hnow, hdelay]
      by_cases hmem : i ∈ L
      · simp [hmem]
      · simp [hmem, Ne.symm hij]

theorem foldl_drain_scalars (L : List ℕ) :
    ∀ s : Sys, (L.foldl drainOne s).now = s.now
      ∧ (L.foldl drainOne s).delay = s.delay
      ∧ (L.foldl drainOne s).watching = s.watching := by
  induction L with
  | nil => intro s; exact ⟨rfl, rfl, rfl⟩
  | cons j L ih =>
    intro s
    rw [List.foldl_cons]
    obtain ⟨h1, h2, h3⟩ := drainOne_scalars s j
    obtain ⟨g1, g2, g3⟩ := ih (drainOne s j)
    exact ⟨g1.trans h1, g2.trans h2, g3.trans h3⟩

theorem foldl_drain_get_none (L : List ℕ) :
    ∀ (s : Sys) (i : ℕ), s.tasks[i]? = none →
      (L.foldl drainOne s).tasks[i]? = none := by
  induction L with
  | nil => intro s i h; simpa using h
  | cons j L ih =>
    intro s i h
    rw [List.foldl_cons]
    refine ih (drainOne s j) i ?_
    by_cases hij : j = i
    · subst hij
      unfold drainOne
      rw [h]
      exact h
    · rw [drainOne_get_ne s j i hij]
      exact h

theorem drainAll_get (s : Sys) (i : ℕ) (t : OcrTask) (hget : s.tasks[i]? = some t) :
    (drainAll s).tasks[i]? = some (drainTask s.now s.delay t) := by
  have hlen : i < s.tasks.length := by
    by_contra hn
    rw [List.getElem?_eq_none (Nat.le_of_not_lt hn)] at hget
    cases hget
  unfold drainAll
  rw [foldl_drain_get (List.range s.tasks.length) s i t hget]
  simp [List.mem_range, hlen]

theorem drainTask_pc (n d : Time) (t : OcrTask) :
    (drainTask n d t).pc = WorkerPc.idle ∨ (drainTask n d t).pc = WorkerPc.cancelled
      ∨ (drainTask n d t).pc = WorkerPc.terminated := by
  unfold drainTask
  rcases hpc : t.pc with _ | _ | _ | _ | u | _ | _ | _ <;> simp only [hpc]
  case idle => simp
  case cancelled => simp
  case terminated => simp
  case running => rcases t.last_touch with _ | lt0 <;> simp
  case postCheck => rcases t.last_touch with _ | lt0 <;> simp
  case inPool => rcases t.last_touch with _ | lt0 <;> simp
  case loopCheck => rcases t.last_touch with _ | lt0 <;> simp
  case sleeping => rcases t.last_touch with _ | lt0 <;> simp

theorem drainTask_of_done_none (n d : Time) (t : OcrTask)
    (hst : t.st = TaskState.DONE) (hlt : t.last_touch = none) :
    (drainTask n d t).st = TaskState.DONE ∧ (drainTask n d t).jobs = t.jobs := by
  unfold drainTask
  rcases hpc : t.pc with _ | _ | _ | _ | u | _ | _ | _ <;>
    try exact ⟨hst, rfl⟩
  case running => rw [hlt]; exact ⟨rfl, rfl⟩
  case postCheck => rw [hlt]; exact ⟨rfl, rfl⟩
  case inPool => rw [hlt]; exact ⟨rfl, rfl⟩
  case loopCheck => rw [hlt]; exact ⟨rfl, rfl⟩
  case sleeping => rw [hlt]; exact ⟨rfl, rfl⟩

theorem onTaskDone_watching (s : Sys) : (onTaskDone s).watching = s.watching := by
  unfold onTaskDone; cases s.reg <;> rfl

theorem cancelSys_eq_none (s : Sys) (hr : s.reg = none) : cancelSys s = s := by
  unfold cancelSys; rw [hr]

theorem cancelSys_eq_oob (s : Sys) (j : ℕ) (hr : s.reg = some j)
    (h : s.tasks[j]? = none) : cancelSys s = s := by
  unfold cancelSys; rw [hr]; dsimp only; rw [h]

theorem cancelSys_eq_queued (s : Sys) (j : ℕ) (t : OcrTask) (hr : s.reg = some j)
    (h : s.tasks[j]? = some t) (hq : t.st = TaskState.QUEUED) :
    cancelSys s = doneT s j
      { t with last_touch := none,
               pc := if t.pc = WorkerPc.inPool then WorkerPc.cancelled else t.pc } := by
  unfold cancelSys; rw [hr]; dsimp only; rw [h]; dsimp only; rw [if_pos hq]

theorem cancelSys_eq_not_queued (s : Sys) (j : ℕ) (t : OcrTask) (hr : s.reg = some j)
    (h : s.tasks[j]? = some t) (hq : ¬ t.st = TaskState.QUEUED) :
    cancelSys s = { s with tasks := s.tasks.set j { t with last_touch := none } } := by
  unfold cancelSys; rw [hr]; dsimp only; rw [h]; dsimp only; rw [if_neg hq]

theorem cancelSys_scalars (s : Sys) :
    (cancelSys s).now = s.now ∧ (cancelSys s).delay = s.delay
      ∧ (cancelSys s).watching = s.watching := by
  rcases hr : s.reg with _ | j
  · rw [cancelSys_eq_none s hr]; exact ⟨rfl, rfl, rfl⟩
  · rcases hget : s.tasks[j]? with _ | t
    · rw [cancelSys_eq_oob s j hr hget]; exact ⟨rfl, rfl, rfl⟩
    · by_cases hq : t.st = TaskState.QUEUED
      · refine ⟨?_, ?_, ?_⟩ <;> rw [cancelSys_eq_queued s j t hr hget hq, doneT]
        · rw [onTaskDone_now]
        · rw [onTaskDone_delay]
        · rw [onTaskDone_watching]
      · rw [cancelSys_eq_not_queued s j t hr hget hq]; exact ⟨rfl, rfl, rfl⟩

theorem drainTask_jobs_none (n d : Time) (t : OcrTask) (h : t.last_touch = none) :
    (drainTask n d t).jobs = t.jobs := by
  unfold drainTask
  rcases hpc : t.pc with _ | _ | _ | _ | u | _ | _ | _ <;> try rfl
  all_goals rw [h]

theorem drainTask_running_none (n d : Time) (t : OcrTask) (h : t.last_touch = none)
    (hp : t.pc = WorkerPc.running) :
    (drainTask n d t).st = TaskState.DONE ∧ (drainTask n d t).rcs = t.rcs ++ [0] := by
  unfold drainTask
  rw [hp]; dsimp only; rw [h]
  exact ⟨rfl, rfl⟩

theorem drainTask_postCheck_none (n d : Time) (t : OcrTask) (h : t.last_touch = none)
    (hp : t.pc = WorkerPc.postCheck) :
    (drainTask n d t).st = TaskState.DONE := by
  unfold drainTask
  rw [hp]; dsimp only; rw [h]

/-- C9, corrected: with the three race-freedom provisos that actually hold of
states produced without the `cancel` double-`done` race - every live (non-DONE)
task is the registered one, finished generations carry no pending touch, and an
`ACTIVE` task is inside or just past the external invocation - `shutdown`
performs its ordered sequence: the observer is stopped first (so the final
state accepts no further `touched` or `deleted` event), every registered task
is canceled, and the pool drain completes every remaining worker.  Afterwards
no worker context remains (`pc` is `idle`, `cancelled` or `terminated`), no
task gains a new external-job invocation (a task `QUEUED` at shutdown start is
canceled and never executes, reaching `DONE`), and a task `ACTIVE` at shutdown
start reaches `DONE` with its in-flight invocation completed (its return code
recorded) and is never re-enqueued.  The unamended claim is refuted by
`C9_counterexample`: after the registry race of C6, shutdown's pool drain runs
the job of a task that was `QUEUED` at shutdown start. -/
theorem C9_shutdown (s : Sys)
    (hreg : ∀ (i : ℕ) (T : OcrTask), s.tasks[i]? = some T →
      T.st ≠ TaskState.DONE → s.reg = some i)
    (hdlt : ∀ (i : ℕ) (T : OcrTask), s.tasks[i]? = some T →
      T.st = TaskState.DONE → T.last_touch = none)
    (hact : ∀ (i : ℕ) (T : OcrTask), s.tasks[i]? = some T →
      T.st = TaskState.ACTIVE →
      T.pc = WorkerPc.running ∨ T.pc = WorkerPc.postCheck) :
    shutdown s = drainAll (cancelSys (stopObserver s))
    ∧ (shutdown s).watching = false
    ∧ step (shutdown s) Ev.touched = none
    ∧ step (shutdown s) Ev.deleted = none
    ∧ ∀ (i : ℕ) (T : OcrTask), s.tasks[i]? = some T →
        ∃ T' : OcrTask, (shutdown s).tasks[i]? = some T'
          ∧ (T'.pc = WorkerPc.idle ∨ T'.pc = WorkerPc.cancelled
              ∨ T'.pc = WorkerPc.terminated)
          ∧ T'.jobs = T.jobs
          ∧ (T.st = TaskState.QUEUED → T'.st = TaskState.DONE)
          ∧ (T.st = TaskState.ACTIVE → T'.st = TaskState.DONE)
          ∧ (T.st = TaskState.ACTIVE → T.pc = WorkerPc.running →
              T'.rcs = T.rcs ++ [0]) := by
  have hw : (shutdown s).watching = false := by
    rw [shutdown, drainAll]
    rw [(foldl_drain_scalars _ _).2.2]
    rw [(cancelSys_scalars _).2.2]
    rfl
  refine ⟨rfl, hw, by simp [step, hw], by simp [step, hw], ?_⟩
  intro i T hget
  rcases hr : s.reg with _ | j
  · have hstD : T.st = TaskState.DONE := by
      by_contra hne
      have h := hreg i T hget hne
      rw [hr] at h
      cases h
    have hlt : T.last_touch = none := hdlt i T hget hstD
    have hget1 : (cancelSys (stopObserver s)).tasks[i]? = some T := by
      rw [cancelSys_eq_none (stopObserver s) hr]
      exact hget
    refine ⟨_, drainAll_get _ i T hget1, drainTask_pc _ _ _, ?_, ?_, ?_, ?_⟩
    · exact (drainTask_of_done_none _ _ T hstD hlt).2
    · intro _; exact (drainTask_of_done_none _ _ T hstD hlt).1
    · intro _; exact (drainTask_of_done_none _ _ T hstD hlt).1
    · intro ha _
      exact absurd (ha.symm.trans hstD) (by decide)
  · by_cases hij : i = j
    · subst hij
      by_cases hq : T.st = TaskState.QUEUED
      · have hget1 : (cancelSys (stopObserver s)).tasks[i]?
            = some ⟨TaskState.DONE, none,
                (if T.pc = WorkerPc.inPool then WorkerPc.cancelled else T.pc),
                T.jobs, T.rcs, T.doneCount + 1⟩ := by
          rw [cancelSys_eq_queued (stopObserver s) i T hr hget hq, doneT, onTaskDone_tasks]
          exact getElem?_set_self _ _ _ _ hget
        refine ⟨_, drainAll_get _ i _ hget1, drainTask_pc _ _ _, ?_, ?_, ?_, ?_⟩
        · exact (drainTask_of_done_none _ _ _ rfl rfl).2
        · intro _; exact (drainTask_of_done_none _ _ _ rfl rfl).1
        · intro _; exact (drainTask_of_done_none _ _ _ rfl rfl).1
        · intro ha _
          exact absurd (ha.symm.trans hq) (by decide)
      · have hget1 : (cancelSys (stopObserver s)).tasks[i]?
            = some ⟨T.st, none, T.pc, T.jobs, T.rcs, T.doneCount⟩ := by
          rw [cancelSys_eq_not_queued (stopObserver s) i T hr hget hq]
          exact getElem?_set_self _ _ _ _ hget
        refine ⟨_, drainAll_get _ i _ hget1, drainTask_pc _ _ _, ?_, ?_, ?_, ?_⟩
        · exact drainTask_jobs_none _ _ _ rfl
        · intro hqq; exact absurd hqq hq
        · intro ha
          rcases hact i T hget ha with hp | hp
          · exact (drainTask_running_none _ _ ⟨T.st, none, T.pc, T.jobs, T.rcs, T.doneCount⟩
              rfl hp).1
          · exact drainTask_postCheck_none _ _ _ rfl hp
        · intro ha hp
          exact (drainTask_running_none _ _ ⟨T.st, none, T.pc, T.jobs, T.rcs, T.doneCount⟩
            rfl hp).2
    · have hstD : T.st = TaskState.DONE := by
        by_contra hne
        have h := hreg i T hget hne
        rw [hr] at h
        exact hij (Option.some.inj h).symm
      have hlt : T.last_touch = none := hdlt i T hget hstD
      have hget1 : (cancelSys (stopObserver s)).tasks[i]? = some T := by
        rcases hgj : s.tasks[j]? with _ | Tj
        · rw [cancelSys_eq_oob (stopObserver s) j hr hgj]
          exact hget
        · by_cases hq : Tj.st = TaskState.QUEUED
          · rw [cancelSys_eq_queued (stopObserver s) j Tj hr hgj hq, doneT, onTaskDone_tasks]
            simp only [stopObserver, List.getElem?_set_ne (Ne.symm hij)]
            exact hget
          · rw [cancelSys_eq_not_queued (stopObserver s) j Tj hr hgj hq]
            simp only [stopObserver, List.getElem?_set_ne (Ne.symm hij)]
            exact hget
      refine ⟨_, drainAll_get _ i T hget1, drainTask_pc _ _ _, ?_, ?_, ?_, ?_⟩
      · exact (drainTask_of_done_none _ _ T hstD hlt).2
      · intro _; exact (drainTask_of_done_none _ _ T hstD hlt).1
      · intro _; exact (drainTask_of_done_none _ _ T hstD hlt).1
      · intro ha _
        exact absurd (ha.symm.trans hstD) (by decide)

/-- C9 counterexample to the unamended claim: starting from the registry race
of the C6 trace, the path's second task is `QUEUED` when shutdown begins, yet
the pool drain of `shutdown` runs its external job (its `jobs` list grows from
`[]` to `[3]`), refuting "any task QUEUED at shutdown start is canceled and
never executes". -/
theorem C9_counterexample :
    run (init 3 0) [Ev.touched, Ev.poolStart 0, Ev.deleted, Ev.touched, Ev.loopIter 0]
        = some sC9
      ∧ sC9.tasks.map OcrTask.st = [TaskState.DONE, TaskState.QUEUED]
      ∧ (shutdown sC9).tasks.map OcrTask.jobs = [[], [3]] := by
  refine ⟨by decide, by decide, ?_⟩
  norm_num [shutdown, stopObserver, cancelSys, drainAll, drainOne, doneT, onTaskDone, sC9,
    List.range_succ]

/-- C9 witness: the amended shutdown theorem applied to the concrete state
`sC2`, whose single task is `ACTIVE` inside the external invocation. -/
theorem C9_witness :
    shutdown sC2 = drainAll (cancelSys (stopObserver sC2))
    ∧ (shutdown sC2).watching = false
    ∧ step (shutdown sC2) Ev.touched = none
    ∧ step (shutdown sC2) Ev.deleted = none
    ∧ ∀ (i : ℕ) (T : OcrTask), sC2.tasks[i]? = some T →
        ∃ T' : OcrTask, (shutdown sC2).tasks[i]? = some T'
          ∧ (T'.pc = WorkerPc.idle ∨ T'.pc = WorkerPc.cancelled
              ∨ T'.pc = WorkerPc.terminated)
          ∧ T'.jobs = T.jobs
          ∧ (T.st = TaskState.QUEUED → T'.st = TaskState.DONE)
          ∧ (T.st = TaskState.ACTIVE → T'.st = TaskState.DONE)
          ∧ (T.st = TaskState.ACTIVE → T.pc = WorkerPc.running →
              T'.rcs = T.rcs ++ [0]) :=
  C9_shutdown sC2
    (by
      intro i T h hne
      obtain ⟨rfl, rfl⟩ := singleton_get h
      rfl)
    (by
      intro i T h hst
      obtain ⟨rfl, rfl⟩ := singleton_get h
      exact absurd hst (by decide))
    (by
      intro i T h hst
      obtain ⟨rfl, rfl⟩ := singleton_get h
      exact Or.inl rfl)

end OcrAuto
